import Mathlib

/-!
A verification development for `rate_counter.go`.

The Go package `stats` implements a per-second event rate counter on a fixed ring of
buckets.  This file embeds its two operations `Mark` and `GetHistogram` and its constructor
`NewRateCounter` as Lean functions, and proves properties of them.

Modelling conventions.

* `clock.Now().Unix()` is an input of the operation that reads it (`tick` for `Mark`,
  `now` for `GetHistogram`).
* A Go run-time panic is an `Except.error` carrying the kind of panic.
* `Buckets []*Counter` is a list of `Counter` values: `NewRateCounter` allocates one fresh
  `Counter` per slot and no code of the package copies a pointer, so slots never alias.
* `int` and `int64` values are carried by `Int`: `Timestamp`, `Count`, `Head`, `Tail`,
  `bucketCount` and `numSeconds` may be negative exactly as in Go.
* The arithmetic comes in two forms.  `Mark` and `GetHistogram` compute over the
  mathematical integers; `Mark64` and `GetHistogram64` are the same code with the
  wrap-around of Go's 64-bit `int` and `int64` (`wrapInt64`).  The two forms agree wherever
  no operation overflows (`Mark64_eq_of_no_wrap`, `GetHistogram64_eq_of_no_wrap`); where
  one does, the statements are made about the wrapping form.
* `map[int64]int` is an association list in which a later entry for a key shadows the
  earlier ones; reading an absent key gives the zero value `0`.
-/

namespace Stats

/-- Run-time panics the Go code can raise. -/
inductive Panic where
  | indexOutOfRange
  | divideByZero
  | makeLenOutOfRange
  deriving DecidableEq, Repr

/-- Go type `Counter`: the number of samples of one Unix second. -/
structure Counter where
  Timestamp : Int
  Count : Int
  deriving DecidableEq, Repr

/-- Go type `RateCounter`. -/
structure RateCounter where
  Buckets : List Counter
  Head : Int
  Tail : Int
  bucketCount : Int
  deriving DecidableEq, Repr

/-- Go slice indexing `bs[i]`: panics when `i` is negative or not below `len(bs)`. -/
def index (bs : List Counter) (i : Int) : Except Panic Counter :=
  if i < 0 then .error .indexOutOfRange
  else
    match bs[i.toNat]? with
    | some c => .ok c
    | none => .error .indexOutOfRange

/-- Go integer remainder `a % b`: truncated, and a panic when `b` is zero. -/
def goMod (a b : Int) : Except Panic Int :=
  if b = 0 then .error .divideByZero else .ok (Int.tmod a b)

/-- Go `NewRateCounter`: `make` panics on a negative length; every slot gets a
fresh `Counter{0, 0}`. -/
def NewRateCounter (maxBuckets : Int) : Except Panic RateCounter :=
  if maxBuckets < 0 then .error .makeLenOutOfRange
  else
    .ok { Buckets := List.replicate maxBuckets.toNat ⟨0, 0⟩
          Head := 0
          Tail := 0
          bucketCount := maxBuckets }

/-- Go `(*RateCounter).Mark`, with the clock reading `tick` as an argument. -/
def Mark (rc : RateCounter) (tick : Int) : Except Panic RateCounter :=
  match index rc.Buckets rc.Head with
  | .error e => .error e
  | .ok b =>
    if b.Timestamp = tick then
      .ok { rc with Buckets := rc.Buckets.set rc.Head.toNat ⟨b.Timestamp, b.Count + 1⟩ }
    else
      match goMod (rc.Head + 1) rc.bucketCount with
      | .error e => .error e
      | .ok head =>
        match index rc.Buckets head with
        | .error e => .error e
        | .ok _ =>
          let buckets := rc.Buckets.set head.toNat ⟨tick, 1⟩
          if head = rc.Tail then
            match goMod (rc.Tail + 1) rc.bucketCount with
            | .error e => .error e
            | .ok tail =>
              .ok { Buckets := buckets, Head := head, Tail := tail,
                    bucketCount := rc.bucketCount }
          else
            .ok { Buckets := buckets, Head := head, Tail := rc.Tail,
                  bucketCount := rc.bucketCount }

/-- Go `map[int64]int`, newest entry first. -/
abbrev GoMap := List (Int × Int)

/-- Go `m[k] = v`. -/
def GoMap.insert (m : GoMap) (k v : Int) : GoMap := (k, v) :: m

/-- Go `m[k]`: the newest entry of the key, the zero value when there is none. -/
def GoMap.lookup (m : GoMap) (k : Int) : Int :=
  match m with
  | [] => 0
  | (k', v) :: rest => if k' = k then v else GoMap.lookup rest k

/-- First loop of `GetHistogram`: `index[rc.Buckets[i].Timestamp] = rc.Buckets[i].Count`
for `i` from `0` up to `rc.bucketCount - 1`, starting from the map `m`. -/
def indexLoop (bs : List Counter) : List Nat → GoMap → Except Panic GoMap
  | [], m => .ok m
  | i :: is, m =>
    match index bs (i : Int) with
    | .error e => .error e
    | .ok b => indexLoop bs is (m.insert b.Timestamp b.Count)

/-- The timestamp index that `GetHistogram` builds from the buckets. -/
def buildIndex (rc : RateCounter) : Except Panic GoMap :=
  indexLoop rc.Buckets (List.range rc.bucketCount.toNat) []

/-- Go `(*RateCounter).GetHistogram`, with the clock reading `now` as an argument. -/
def GetHistogram (rc : RateCounter) (now numSeconds : Int) : Except Panic (List Int) :=
  match buildIndex rc with
  | .error e => .error e
  | .ok idx =>
    let start := now - numSeconds
    if numSeconds < 0 then .error .makeLenOutOfRange
    else .ok ((List.range numSeconds.toNat).map fun (i : Nat) => idx.lookup (start + (i : Int)))

/-- Successive `Mark` calls, one per clock reading of `ticks`. -/
def markAll (rc : RateCounter) : List Int → Except Panic RateCounter
  | [] => .ok rc
  | t :: ts =>
    match Mark rc t with
    | .error e => .error e
    | .ok rc' => markAll rc' ts

/-- The counter `NewRateCounter(n)` after `Mark` calls at the readings `ticks`. -/
def run (n : Int) (ticks : List Int) : Except Panic RateCounter :=
  match NewRateCounter n with
  | .error e => .error e
  | .ok rc => markAll rc ticks

/-- Histogram of `NewRateCounter(n)` after the marks `ticks`, queried at `now`. -/
def runHistogram (n : Int) (ticks : List Int) (now numSeconds : Int) :
    Except Panic (List Int) :=
  match run n ticks with
  | .error e => .error e
  | .ok rc => GetHistogram rc now numSeconds

/-- Entering the buckets `l`, in order, into the map `m`. -/
def scan (l : List Counter) (m : GoMap) : GoMap :=
  l.foldl (fun acc b => acc.insert b.Timestamp b.Count) m

/-- Specification view of a lookup: the `Count` of the highest-indexed bucket of `bs` whose
`Timestamp` is `s`, and `0` when no bucket has that `Timestamp`. -/
def recordedCount (bs : List Counter) (s : Int) : Int :=
  bs.foldl (fun acc b => if b.Timestamp = s then b.Count else acc) 0

/-- Two counters that differ at most in the `Count` of buckets whose `Timestamp` is `now`. -/
def SameExceptCountAt (now : Int) (rc rc' : RateCounter) : Prop :=
  rc.Head = rc'.Head ∧ rc.Tail = rc'.Tail ∧ rc.bucketCount = rc'.bucketCount ∧
    List.Forall₂ (fun b b' => b.Timestamp = b'.Timestamp ∧
      (b.Timestamp ≠ now → b.Count = b'.Count)) rc.Buckets rc'.Buckets

/-- The buckets in ring order, from the slot after `Head` round to `Head`: the slot that
the next new second overwrites comes first, the most recently written slot last. -/
def ring (rc : RateCounter) : List Counter :=
  rc.Buckets.rotate (rc.Head.toNat + 1)

/-- Shape of a counter of capacity `n`: `n` buckets, `bucketCount = n`, and both indices
inside the ring. -/
def WF (n : Int) (rc : RateCounter) : Prop :=
  rc.bucketCount = n ∧ (rc.Buckets.length : Int) = n ∧
    0 ≤ rc.Head ∧ rc.Head < n ∧ 0 ≤ rc.Tail ∧ rc.Tail < n

/-- Number of distinct readings of `ticks` that are greater than `s`. -/
def newer (ticks : List Int) (s : Int) : Nat :=
  (ticks.toFinset.filter (fun r => s < r)).card

/-- Specification view of a histogram entry: the number of marks made at second `s` when
`s` is one of the `n` largest distinct readings of `ticks`, and `0` otherwise. -/
def expectedCount (n : Int) (ticks : List Int) (s : Int) : Int :=
  if s ∈ ticks ∧ (newer ticks s : Int) < n then (ticks.count s : Int) else 0

/-- What is known of a reading `t` that follows the readings `hist` of a clock that never
steps back and starts at second `1` or later. -/
def Later (hist : List Int) (t : Int) : Prop :=
  1 ≤ t ∧ ∀ s ∈ hist, s ≤ t

/-- Invariant of the ring `R` (in ring order) after marks at the non-decreasing readings
`hist`, all at least `1`. -/
structure Retained (R : List Counter) (hist : List Int) : Prop where
  count_eq : ∀ c ∈ R, c.Count = (hist.count c.Timestamp : Int)
  ordered : R.Pairwise (fun a b => a.Timestamp = 0 ∨ a.Timestamp < b.Timestamp)
  stamp : ∀ c ∈ R, c.Timestamp = 0 ∨ c.Timestamp ∈ hist
  evicted : ∀ s ∈ hist, (∃ c ∈ R, c.Timestamp = s) ∨ ∀ c ∈ R, s < c.Timestamp
  newest : ∀ Q b, R = Q ++ [b] → ∀ s ∈ hist, s ≤ b.Timestamp
  pos : ∀ s ∈ hist, 1 ≤ s

/-- Invariant of the ring `R` after marks at arbitrary readings `hist`: a slot is either
still the initial `{0, 0}` or stamped with a reading that was marked. -/
def Seen (R : List Counter) (hist : List Int) : Prop :=
  ∀ c ∈ R, (c.Timestamp = 0 ∧ c.Count = 0) ∨ c.Timestamp ∈ hist

/-- First loop of `GetHistogram` in state-passing form: the counter is threaded through
the iterations next to the local map; an iteration reads `rc.Buckets[i]` and writes only
the map. -/
def indexLoopSt : List Nat → RateCounter × GoMap → RateCounter × Except Panic GoMap
  | [], (rc, m) => (rc, .ok m)
  | i :: is, (rc, m) =>
    match index rc.Buckets (i : Int) with
    | .error e => (rc, .error e)
    | .ok b => indexLoopSt is (rc, m.insert b.Timestamp b.Count)

/-- Go `(*RateCounter).GetHistogram` in state-passing form: the counter as the call leaves
it, and the outcome of the call. -/
def GetHistogramSt (rc : RateCounter) (now numSeconds : Int) :
    RateCounter × Except Panic (List Int) :=
  match indexLoopSt (List.range rc.bucketCount.toNat) (rc, []) with
  | (rc1, .error e) => (rc1, .error e)
  | (rc1, .ok idx) =>
    let start := now - numSeconds
    if numSeconds < 0 then (rc1, .error .makeLenOutOfRange)
    else (rc1, .ok ((List.range numSeconds.toNat).map
      fun (i : Nat) => idx.lookup (start + (i : Int))))

/-- Invariant of the ring `R` after marks at arbitrary readings `hist`: no slot counts
more marks than were made at its timestamp, and no count is negative. -/
def Bounded (R : List Counter) (hist : List Int) : Prop :=
  ∀ c ∈ R, 0 ≤ c.Count ∧ c.Count ≤ (hist.count c.Timestamp : Int)

/-- What is known of a reading `t` that follows the readings `hist` of a clock that never
steps back, whatever its sign. -/
def NotBefore (hist : List Int) (t : Int) : Prop :=
  ∀ s ∈ hist, s ≤ t

/-- Invariant of the ring `R` after marks at non-decreasing readings `hist` of any sign:
two slots share a `Timestamp` only when it is `0`. -/
structure Distinct (R : List Counter) (hist : List Int) : Prop where
  stamp : ∀ c ∈ R, c.Timestamp = 0 ∨ c.Timestamp ∈ hist
  nodup : R.Pairwise (fun a b => a.Timestamp = b.Timestamp → a.Timestamp = 0)
  newest : ∀ Q b, R = Q ++ [b] → ∀ s ∈ hist, s ≤ b.Timestamp ∧ b.Timestamp ∈ hist

/-- The two phases of `Tail` on a counter of capacity `n` under readings that are all at
least `1`.  Until the ring has wrapped, `Tail` is still `0` and the `n - Head` slots that
come first in ring order are the never-written `{0, 0}`; from then on no slot is stamped
`0` and `Tail` is the slot after `Head`. -/
def TailPhase (n : Int) (rc : RateCounter) : Prop :=
  (rc.Tail = 0 ∧ 1 ≤ (n - rc.Head).toNat ∧
      ∃ W, ring rc = List.replicate (n - rc.Head).toNat ⟨0, 0⟩ ++ W ∧
        ∀ c ∈ W, c.Timestamp ≠ 0) ∨
    (rc.Tail = (rc.Head + 1) % n ∧ ∀ c ∈ ring rc, c.Timestamp ≠ 0)

/-- Smallest `int64` value, `-2^63`. -/
def minInt64 : Int := -9223372036854775808

/-- Largest `int64` value, `2^63 - 1`. -/
def maxInt64 : Int := 9223372036854775807

/-- Two's-complement wrap-around of Go's arithmetic on `int64` (and on `int`, 64 bits wide
on a 64-bit platform): the value of `[-2^63, 2^63)` congruent to `x` modulo `2^64`. -/
def wrapInt64 (x : Int) : Int :=
  (x + 9223372036854775808) % 18446744073709551616 - 9223372036854775808

/-- Go `(*RateCounter).Mark` with Go's wrapping arithmetic: `Count++`, `rc.Head + 1` and
`rc.Tail + 1` wrap around at the ends of the 64-bit range. -/
def Mark64 (rc : RateCounter) (tick : Int) : Except Panic RateCounter :=
  match index rc.Buckets rc.Head with
  | .error e => .error e
  | .ok b =>
    if b.Timestamp = tick then
      .ok { rc with
        Buckets := rc.Buckets.set rc.Head.toNat ⟨b.Timestamp, wrapInt64 (b.Count + 1)⟩ }
    else
      match goMod (wrapInt64 (rc.Head + 1)) rc.bucketCount with
      | .error e => .error e
      | .ok head =>
        match index rc.Buckets head with
        | .error e => .error e
        | .ok _ =>
          let buckets := rc.Buckets.set head.toNat ⟨tick, 1⟩
          if head = rc.Tail then
            match goMod (wrapInt64 (rc.Tail + 1)) rc.bucketCount with
            | .error e => .error e
            | .ok tail =>
              .ok { Buckets := buckets, Head := head, Tail := tail,
                    bucketCount := rc.bucketCount }
          else
            .ok { Buckets := buckets, Head := head, Tail := rc.Tail,
                  bucketCount := rc.bucketCount }

/-- Go `(*RateCounter).GetHistogram` with Go's wrapping arithmetic: `start` is
`clock.Now().Unix() - int64(numSeconds)` in `int64`, and so is every key `start + i`. -/
def GetHistogram64 (rc : RateCounter) (now numSeconds : Int) : Except Panic (List Int) :=
  match buildIndex rc with
  | .error e => .error e
  | .ok idx =>
    let start := wrapInt64 (now - numSeconds)
    if numSeconds < 0 then .error .makeLenOutOfRange
    else .ok ((List.range numSeconds.toNat).map
      fun (i : Nat) => idx.lookup (wrapInt64 (start + (i : Int))))

/-- Histogram, computed as Go does, of `NewRateCounter(n)` after the marks `ticks`,
queried at `now`. -/
def runHistogram64 (n : Int) (ticks : List Int) (now numSeconds : Int) :
    Except Panic (List Int) :=
  match run n ticks with
  | .error e => .error e
  | .ok rc => GetHistogram64 rc now numSeconds

/-! ## Construction and the two branches of `Mark` -/

theorem index_ok (bs : List Counter) (i : Int) (b : Counter) (h0 : 0 ≤ i)
    (hb : bs[i.toNat]? = some b) : index bs i = .ok b := by
  unfold index
  rw [if_neg (by omega), hb]

theorem index_ok_iff (bs : List Counter) (i : Int) (b : Counter) :
    index bs i = .ok b ↔ 0 ≤ i ∧ bs[i.toNat]? = some b := by
  unfold index
  by_cases h : i < 0
  · simp [h]
  · rw [if_neg h]
    cases hb : bs[i.toNat]? with
    | none => simp
    | some c =>
      simp only [Except.ok.injEq, Option.some.injEq]
      exact ⟨fun hc => ⟨by omega, hc⟩, fun hc => hc.2⟩

theorem goMod_ok (a b : Int) (ha : 0 ≤ a) (hb : 0 < b) : goMod a b = .ok (a % b) := by
  unfold goMod
  rw [if_neg (by omega), Int.tmod_eq_emod ha (by omega)]

theorem Mark_eq_same (rc : RateCounter) (t : Int) (b : Counter) (h0 : 0 ≤ rc.Head)
    (hb : rc.Buckets[rc.Head.toNat]? = some b) (ht : b.Timestamp = t) :
    Mark rc t = .ok
      { rc with Buckets := rc.Buckets.set rc.Head.toNat ⟨b.Timestamp, b.Count + 1⟩ } := by
  unfold Mark
  rw [index_ok _ _ b h0 hb]
  simp only [if_pos ht]

theorem Mark_eq_new (rc : RateCounter) (t : Int) (b : Counter)
    (hlen : rc.bucketCount = rc.Buckets.length) (hpos : 1 ≤ rc.bucketCount)
    (h0 : 0 ≤ rc.Head) (hb : rc.Buckets[rc.Head.toNat]? = some b) (ht : b.Timestamp ≠ t) :
    Mark rc t = .ok
      { Buckets := rc.Buckets.set ((rc.Head + 1) % rc.bucketCount).toNat ⟨t, 1⟩
        Head := (rc.Head + 1) % rc.bucketCount
        Tail := if (rc.Head + 1) % rc.bucketCount = rc.Tail
          then (rc.Tail + 1) % rc.bucketCount else rc.Tail
        bucketCount := rc.bucketCount } := by
  have hm0 : 0 ≤ (rc.Head + 1) % rc.bucketCount := Int.emod_nonneg _ (by omega)
  have hm1 : (rc.Head + 1) % rc.bucketCount < rc.bucketCount := Int.emod_lt_of_pos _ (by omega)
  have hlt : ((rc.Head + 1) % rc.bucketCount).toNat < rc.Buckets.length := by omega
  obtain ⟨c, hc⟩ : ∃ c, rc.Buckets[((rc.Head + 1) % rc.bucketCount).toNat]? = some c :=
    ⟨_, List.getElem?_eq_getElem hlt⟩
  unfold Mark
  rw [index_ok _ _ b h0 hb]
  simp only [if_neg ht]
  rw [goMod_ok _ _ (by omega) (by omega)]
  simp only []
  rw [index_ok _ _ c hm0 hc]
  simp only []
  by_cases hT : (rc.Head + 1) % rc.bucketCount = rc.Tail
  · rw [if_pos hT, if_pos hT, goMod_ok _ _ (by omega) (by omega)]
  · rw [if_neg hT, if_neg hT]

/-- C8: for `maxBuckets ≥ 1`, `NewRateCounter(maxBuckets)` returns a counter with exactly
`maxBuckets` buckets, each `{Timestamp: 0, Count: 0}`, `Head = 0`, `Tail = 0` and
`bucketCount = maxBuckets`. -/
theorem NewRateCounter_initial (maxBuckets : Int) (h : 1 ≤ maxBuckets) :
    ∃ rc, NewRateCounter maxBuckets = .ok rc ∧
      (rc.Buckets.length : Int) = maxBuckets ∧
      (∀ b ∈ rc.Buckets, b = ⟨0, 0⟩) ∧
      rc.Head = 0 ∧ rc.Tail = 0 ∧ rc.bucketCount = maxBuckets := by
  refine ⟨_, by unfold NewRateCounter; rw [if_neg (by omega)], ?_, ?_, rfl, rfl, rfl⟩
  · simp only [List.length_replicate]; omega
  · intro b hb
    exact List.eq_of_mem_replicate hb

theorem NewRateCounter_initial_witness :
    ∃ rc, NewRateCounter 3 = .ok rc ∧
      (rc.Buckets.length : Int) = 3 ∧
      (∀ b ∈ rc.Buckets, b = ⟨0, 0⟩) ∧
      rc.Head = 0 ∧ rc.Tail = 0 ∧ rc.bucketCount = 3 :=
  NewRateCounter_initial 3 (by decide)

/-- C10: when the bucket at `Head` carries another timestamp than the clock reading `t`,
`Mark` moves `Head` to `(Head + 1) mod bucketCount`, writes `{Timestamp: t, Count: 1}`
there, leaves every other bucket as it was, and moves `Tail` to
`(Tail + 1) mod bucketCount` exactly when the new `Head` equals the old `Tail`. -/
theorem Mark_new_second (rc : RateCounter) (t : Int) (b : Counter)
    (hlen : rc.bucketCount = rc.Buckets.length) (hpos : 1 ≤ rc.bucketCount)
    (h0 : 0 ≤ rc.Head) (h1 : rc.Head < rc.bucketCount)
    (hb : rc.Buckets[rc.Head.toNat]? = some b) (ht : b.Timestamp ≠ t) :
    ∃ rc', Mark rc t = .ok rc' ∧
      rc'.Head = (rc.Head + 1) % rc.bucketCount ∧
      rc'.Buckets[rc'.Head.toNat]? = some ⟨t, 1⟩ ∧
      (∀ j : Nat, j ≠ rc'.Head.toNat → rc'.Buckets[j]? = rc.Buckets[j]?) ∧
      rc'.Tail = (if rc'.Head = rc.Tail then (rc.Tail + 1) % rc.bucketCount else rc.Tail) ∧
      rc'.bucketCount = rc.bucketCount ∧ rc'.Buckets.length = rc.Buckets.length := by
  have hm1 : (rc.Head + 1) % rc.bucketCount < rc.bucketCount := Int.emod_lt_of_pos _ (by omega)
  have hlt : ((rc.Head + 1) % rc.bucketCount).toNat < rc.Buckets.length := by omega
  have hmark := Mark_eq_new rc t b hlen hpos h0 hb ht
  refine ⟨_, hmark, rfl, ?_, ?_, rfl, rfl, ?_⟩
  · simp [List.getElem?_set, hlt]
  · intro j hj
    simp only [] at hj
    simp [List.getElem?_set, Ne.symm hj]
  · simp

theorem Mark_new_second_witness :
    ∃ rc', Mark ⟨[⟨9, 1⟩, ⟨7, 2⟩, ⟨8, 4⟩], 0, 1, 3⟩ 10 = .ok rc' ∧
      rc'.Head = (0 + 1) % 3 ∧
      rc'.Buckets[rc'.Head.toNat]? = some ⟨10, 1⟩ ∧
      (∀ j : Nat, j ≠ rc'.Head.toNat →
        rc'.Buckets[j]? = ([⟨9, 1⟩, ⟨7, 2⟩, ⟨8, 4⟩] : List Counter)[j]?) ∧
      rc'.Tail = (if rc'.Head = 1 then (1 + 1) % 3 else 1) ∧
      rc'.bucketCount = 3 ∧ rc'.Buckets.length = 3 :=
  Mark_new_second ⟨[⟨9, 1⟩, ⟨7, 2⟩, ⟨8, 4⟩], 0, 1, 3⟩ 10 ⟨9, 1⟩ rfl (by decide) (by decide)
    (by decide) rfl (by decide)

/-! ## The read path -/

theorem indexLoop_range' (bs : List Counter) :
    ∀ (k s : Nat) (m : GoMap), indexLoop bs (List.range' s k) m =
      if k = 0 ∨ s + k ≤ bs.length then .ok (scan ((bs.drop s).take k) m)
      else .error .indexOutOfRange := by
  intro k
  induction k with
  | zero => intro s m; simp [indexLoop, scan]
  | succ k ih =>
    intro s m
    rw [List.range'_succ, indexLoop]
    by_cases hs : s < bs.length
    · rw [index_ok bs (s : Int) bs[s] (by omega) (by simp [List.getElem?_eq_getElem hs])]
      simp only []
      rw [ih (s + 1)]
      have hd : bs.drop s = bs[s] :: bs.drop (s + 1) := List.drop_eq_getElem_cons hs
      by_cases hk : s + (k + 1) ≤ bs.length
      · rw [if_pos (Or.inr (by omega)), if_pos (Or.inr hk), hd]
        simp only [scan, List.take_succ_cons, List.foldl_cons]
      · rw [if_neg (by omega), if_neg (by omega)]
    · have hnone : bs[((s : Nat) : Int).toNat]? = none := by
        simp only [Int.toNat_ofNat]
        exact List.getElem?_eq_none (by omega)
      have herr : index bs (s : Int) = .error .indexOutOfRange := by
        unfold index
        rw [if_neg (by omega), hnone]
      rw [herr, if_neg (by omega)]

theorem lookup_scan (s : Int) :
    ∀ (l : List Counter) (m : GoMap), GoMap.lookup (scan l m) s =
      l.foldl (fun acc b => if b.Timestamp = s then b.Count else acc) (GoMap.lookup m s) := by
  intro l
  induction l with
  | nil => intro m; rfl
  | cons b l ih =>
    intro m
    have h := ih (m.insert b.Timestamp b.Count)
    simp only [scan, List.foldl_cons] at h ⊢
    rw [h]
    rfl

theorem buildIndex_eq (rc : RateCounter) :
    buildIndex rc =
      if rc.bucketCount ≤ rc.Buckets.length
      then .ok (scan (rc.Buckets.take rc.bucketCount.toNat) [])
      else .error .indexOutOfRange := by
  unfold buildIndex
  rw [List.range_eq_range', indexLoop_range']
  by_cases h : rc.bucketCount ≤ rc.Buckets.length
  · rw [if_pos h, if_pos (by omega)]
    simp
  · rw [if_neg h, if_neg (by omega)]

theorem GetHistogram_eq (rc : RateCounter) (now numSeconds : Int)
    (hlen : rc.bucketCount ≤ rc.Buckets.length) (hn : 0 ≤ numSeconds) :
    GetHistogram rc now numSeconds = .ok ((List.range numSeconds.toNat).map fun (i : Nat) =>
      recordedCount (rc.Buckets.take rc.bucketCount.toNat) (now - numSeconds + (i : Int))) := by
  unfold GetHistogram
  rw [buildIndex_eq, if_pos hlen]
  simp only []
  rw [if_neg (by omega)]
  congr 1
  apply List.map_congr_left
  intro i _
  rw [lookup_scan]
  rfl

theorem foldl_count_of_absent (s : Int) :
    ∀ (l : List Counter) (acc : Int), (∀ b ∈ l, b.Timestamp ≠ s) →
      l.foldl (fun acc b => if b.Timestamp = s then b.Count else acc) acc = acc := by
  intro l
  induction l with
  | nil => intro acc _; rfl
  | cons b l ih =>
    intro acc h
    rw [List.foldl_cons, if_neg (h b (List.mem_cons_self _ _))]
    exact ih acc (fun c hc => h c (List.mem_cons_of_mem _ hc))

theorem recordedCount_of_absent (bs : List Counter) (s : Int)
    (h : ∀ b ∈ bs, b.Timestamp ≠ s) : recordedCount bs s = 0 :=
  foldl_count_of_absent s bs 0 h

theorem recordedCount_of_last (bs : List Counter) (s : Int) (j : Nat) (b : Counter)
    (hj : bs[j]? = some b) (hb : b.Timestamp = s)
    (hlater : ∀ (j' : Nat) (b' : Counter), j < j' → bs[j']? = some b' → b'.Timestamp ≠ s) :
    recordedCount bs s = b.Count := by
  have hlt : j < bs.length := (List.getElem?_eq_some_iff.mp hj).1
  have hbj : bs[j] = b := (List.getElem?_eq_some_iff.mp hj).2
  have hsplit : bs = bs.take j ++ b :: bs.drop (j + 1) := by
    rw [← hbj, ← List.drop_eq_getElem_cons hlt, List.take_append_drop]
  unfold recordedCount
  rw [hsplit, List.foldl_append, List.foldl_cons, if_pos hb]
  apply foldl_count_of_absent
  intro c hc
  obtain ⟨k, hk, hck⟩ := List.getElem_of_mem hc
  rw [List.getElem_drop] at hck
  refine hlater (j + 1 + k) c (by omega) ?_
  rw [← hck]
  rw [List.length_drop] at hk
  exact List.getElem?_eq_getElem (by omega)

/-- A bucket whose `Count` every bucket of its `Timestamp` shares is what a lookup finds. -/
theorem recordedCount_of_agree (s v : Int) :
    ∀ (bs : List Counter), (∀ b ∈ bs, b.Timestamp = s → b.Count = v) →
      (∃ b ∈ bs, b.Timestamp = s) → recordedCount bs s = v := by
  intro bs hall hex
  obtain ⟨b, hb, hbs⟩ := hex
  have key : ∀ (l : List Counter) (acc : Int), (∀ c ∈ l, c.Timestamp = s → c.Count = v) →
      (acc = v ∨ ∃ c ∈ l, c.Timestamp = s) →
      l.foldl (fun acc b => if b.Timestamp = s then b.Count else acc) acc = v := by
    intro l
    induction l with
    | nil =>
      intro acc _ h
      rcases h with h | ⟨c, hc, _⟩
      · exact h
      · cases hc
    | cons c l ih =>
      intro acc hl h
      rw [List.foldl_cons]
      apply ih _ (fun d hd => hl d (List.mem_cons_of_mem _ hd))
      by_cases hcs : c.Timestamp = s
      · rw [if_pos hcs]
        exact Or.inl (hl c (List.mem_cons_self _ _) hcs)
      · rw [if_neg hcs]
        rcases h with h | ⟨d, hd, hds⟩
        · exact Or.inl h
        · rcases List.mem_cons.mp hd with hdc | hdl
          · exact absurd (hdc ▸ hds) hcs
          · exact Or.inr ⟨d, hdl, hds⟩
  exact key bs 0 hall (Or.inr ⟨b, hb, hbs⟩)

/-- Over the mathematical integers: on a counter whose `bucketCount` is the number of its
buckets, element `i` of `GetHistogram(numSeconds)` is the `Count` of the highest-indexed
bucket whose `Timestamp` is `now - numSeconds + i`, and `0` when no bucket has that
`Timestamp`. -/
theorem GetHistogram_element (rc : RateCounter) (now numSeconds : Int) (i : Nat)
    (hlen : rc.bucketCount = rc.Buckets.length) (hn : 0 ≤ numSeconds)
    (hi : (i : Int) < numSeconds) :
    ∃ hist v, GetHistogram rc now numSeconds = .ok hist ∧ hist[i]? = some v ∧
      (∀ (j : Nat) (b : Counter), rc.Buckets[j]? = some b →
        b.Timestamp = now - numSeconds + i →
        (∀ (j' : Nat) (b' : Counter), j < j' → rc.Buckets[j']? = some b' →
          b'.Timestamp ≠ now - numSeconds + i) → v = b.Count) ∧
      ((∀ b ∈ rc.Buckets, b.Timestamp ≠ now - numSeconds + i) → v = 0) := by
  have htake : rc.Buckets.take rc.bucketCount.toNat = rc.Buckets := by
    apply List.take_of_length_le
    omega
  refine ⟨_, recordedCount rc.Buckets (now - numSeconds + i),
    GetHistogram_eq rc now numSeconds (by omega) hn, ?_, ?_, ?_⟩
  · rw [htake, List.getElem?_map, List.getElem?_range (by omega)]
    rfl
  · intro j b hj hb hlater
    exact recordedCount_of_last _ _ j b hj hb hlater
  · intro h
    exact recordedCount_of_absent _ _ h

/-- C3: on a counter whose `bucketCount` is the number of its buckets, `GetHistogram`
succeeds for every `numSeconds ≥ 0` (zero and values above the capacity included) and
returns exactly `numSeconds` elements. -/
theorem GetHistogram_length (rc : RateCounter) (now numSeconds : Int)
    (hlen : rc.bucketCount = rc.Buckets.length) (hn : 0 ≤ numSeconds) :
    ∃ hist, GetHistogram rc now numSeconds = .ok hist ∧ (hist.length : Int) = numSeconds := by
  refine ⟨_, GetHistogram_eq rc now numSeconds (by omega) hn, ?_⟩
  simp only [List.length_map, List.length_range]
  omega

theorem GetHistogram_length_witness :
    ∃ hist, GetHistogram ⟨[⟨0, 0⟩, ⟨7, 2⟩], 1, 0, 2⟩ 9 5 = .ok hist ∧
      (hist.length : Int) = 5 :=
  GetHistogram_length ⟨[⟨0, 0⟩, ⟨7, 2⟩], 1, 0, 2⟩ 9 5 rfl (by decide)

theorem GetHistogram_panic (rc : RateCounter) (now numSeconds : Int)
    (hlen : (rc.Buckets.length : Int) < rc.bucketCount) :
    GetHistogram rc now numSeconds = .error .indexOutOfRange := by
  unfold GetHistogram
  rw [buildIndex_eq, if_neg (by omega)]

theorem recordedCount_congr (now s : Int) (hs : s ≠ now) :
    ∀ (l l' : List Counter),
      List.Forall₂ (fun b b' => b.Timestamp = b'.Timestamp ∧
        (b.Timestamp ≠ now → b.Count = b'.Count)) l l' →
      recordedCount l s = recordedCount l' s := by
  have key : ∀ (l l' : List Counter),
      List.Forall₂ (fun b b' => b.Timestamp = b'.Timestamp ∧
        (b.Timestamp ≠ now → b.Count = b'.Count)) l l' →
      ∀ acc : Int, l.foldl (fun acc b => if b.Timestamp = s then b.Count else acc) acc =
        l'.foldl (fun acc b => if b.Timestamp = s then b.Count else acc) acc := by
    intro l l' h
    induction h with
    | nil => intro acc; rfl
    | @cons a b _ _ hab _ ih =>
      intro acc
      rw [List.foldl_cons, List.foldl_cons, ← hab.1]
      by_cases ha : a.Timestamp = s
      · rw [if_pos ha, if_pos ha, hab.2 (by rw [ha]; exact hs)]
        exact ih _
      · rw [if_neg ha, if_neg ha]
        exact ih _
  intro l l' h
  exact key l l' h 0

/-- Over the mathematical integers: for `numSeconds ≥ 1`, on every counter on which the scan
of the first `bucketCount` buckets is in range, the last element of
`GetHistogram(numSeconds)` is the count recorded for second `now - 1` and element `i` is
the count recorded for second `now - numSeconds + i`, a second of `[now - numSeconds,
now - 1]`; on the other counters the call panics; and two counters that differ only in
the `Count` of buckets whose `Timestamp` is `now` give the same result, so the
in-progress second is never reported. -/
theorem GetHistogram_alignment (rc rc' : RateCounter) (now numSeconds : Int)
    (h1 : 1 ≤ numSeconds) :
    (rc.bucketCount ≤ rc.Buckets.length →
      ∃ hist, GetHistogram rc now numSeconds = .ok hist ∧
        hist[(numSeconds - 1).toNat]? =
          some (recordedCount (rc.Buckets.take rc.bucketCount.toNat) (now - 1)) ∧
        ∀ i : Nat, (i : Int) < numSeconds →
          now - numSeconds ≤ now - numSeconds + i ∧ now - numSeconds + i ≤ now - 1 ∧
          hist[i]? = some (recordedCount (rc.Buckets.take rc.bucketCount.toNat)
            (now - numSeconds + i))) ∧
    ((rc.Buckets.length : Int) < rc.bucketCount →
      GetHistogram rc now numSeconds = .error .indexOutOfRange) ∧
    (SameExceptCountAt now rc rc' →
      GetHistogram rc' now numSeconds = GetHistogram rc now numSeconds) := by
  have helem : ∀ i : Nat, (i : Int) < numSeconds →
      ((List.range numSeconds.toNat).map fun (i : Nat) =>
        recordedCount (rc.Buckets.take rc.bucketCount.toNat) (now - numSeconds + (i : Int)))[i]? =
      some (recordedCount (rc.Buckets.take rc.bucketCount.toNat) (now - numSeconds + i)) := by
    intro i hi
    rw [List.getElem?_map, List.getElem?_range (by omega)]
    rfl
  refine ⟨fun hlen => ⟨_, GetHistogram_eq rc now numSeconds hlen (by omega), ?_, ?_⟩,
    GetHistogram_panic rc now numSeconds, ?_⟩
  · rw [helem _ (by omega)]
    congr 2
    omega
  · intro i hi
    exact ⟨by omega, by omega, helem i hi⟩
  · rintro ⟨_, _, hbc, hall⟩
    have hl : rc.Buckets.length = rc'.Buckets.length := hall.length_eq
    by_cases hlen : rc.bucketCount ≤ rc.Buckets.length
    · rw [GetHistogram_eq rc now numSeconds hlen (by omega),
        GetHistogram_eq rc' now numSeconds (by omega) (by omega)]
      congr 1
      apply List.map_congr_left
      intro i hi
      rw [List.mem_range] at hi
      rw [← hbc]
      exact (recordedCount_congr now _ (by omega) _ _
        (List.forall₂_take rc.bucketCount.toNat hall)).symm
    · rw [GetHistogram_panic rc now numSeconds (by omega),
        GetHistogram_panic rc' now numSeconds (by omega)]

/-! ## The ring view of the write path -/

theorem rotate_after (A B : List Counter) (x : Counter) :
    (A ++ x :: B).rotate (A.length + 1) = B ++ (A ++ [x]) := by
  have h := List.rotate_append_length_eq (A ++ [x]) B
  simp only [List.length_append, List.length_singleton, List.append_assoc,
    List.singleton_append] at h
  exact h

theorem rotate_at (A B : List Counter) (x : Counter) :
    (A ++ x :: B).rotate A.length = x :: (B ++ A) := by
  exact List.rotate_append_length_eq A (x :: B)

theorem split_at (bs : List Counter) (h : Nat) (hlt : h < bs.length) :
    ∃ A b B, bs = A ++ b :: B ∧ A.length = h ∧ bs[h]? = some b :=
  ⟨bs.take h, bs[h], bs.drop (h + 1), by
    rw [← List.drop_eq_getElem_cons hlt, List.take_append_drop],
    List.length_take_of_le (by omega), List.getElem?_eq_getElem hlt⟩

theorem set_split (A B : List Counter) (x y : Counter) :
    (A ++ x :: B).set A.length y = A ++ y :: B := by
  rw [List.set_append_right _ _ (Nat.le_refl _)]
  simp

theorem WF_pos {n : Int} {rc : RateCounter} (h : WF n rc) : 1 ≤ n := by
  obtain ⟨_, _, h0, h1, _, _⟩ := h
  omega

/-- The most recently written slot, `Buckets[Head]`, is the last one in ring order. -/
theorem ring_last {n : Int} {rc : RateCounter} (h : WF n rc) :
    ∃ Q b, ring rc = Q ++ [b] ∧ rc.Buckets[rc.Head.toNat]? = some b := by
  obtain ⟨_, hl, h0, h1, _, _⟩ := h
  have hlt : rc.Head.toNat < rc.Buckets.length := by omega
  obtain ⟨A, b, B, hAB, hA, hb⟩ := split_at rc.Buckets rc.Head.toNat hlt
  refine ⟨B ++ A, b, ?_, hb⟩
  unfold ring
  rw [hAB, ← hA, rotate_after, List.append_assoc]

/-- One `Mark` on a well-shaped counter succeeds, and in ring order it either bumps the
count of the last slot or drops the first slot and appends `{tick, 1}`. -/
theorem Mark_ring {n : Int} {rc : RateCounter} (h : WF n rc) (t : Int) :
    ∃ rc' Q b, Mark rc t = .ok rc' ∧ WF n rc' ∧ ring rc = Q ++ [b] ∧
      ((b.Timestamp = t ∧ rc'.Head = rc.Head ∧ ring rc' = Q ++ [⟨t, b.Count + 1⟩]) ∨
       (b.Timestamp ≠ t ∧ rc'.Head = (rc.Head + 1) % n ∧
          ∃ a Q', ring rc = a :: Q' ∧ ring rc' = Q' ++ [⟨t, 1⟩])) := by
  have hn := WF_pos h
  obtain ⟨hbc, hl, h0, h1, hT0, hT1⟩ := h
  subst hbc
  have hlt : rc.Head.toNat < rc.Buckets.length := by omega
  obtain ⟨A, b, B, hAB, hA, hb⟩ := split_at rc.Buckets rc.Head.toNat hlt
  have hring : ring rc = (B ++ A) ++ [b] := by
    unfold ring
    rw [hAB, ← hA, rotate_after, List.append_assoc]
  by_cases ht : b.Timestamp = t
  · refine ⟨_, B ++ A, b, Mark_eq_same rc t b h0 hb ht, ?_, hring, Or.inl ⟨ht, rfl, ?_⟩⟩
    · refine ⟨rfl, ?_, h0, h1, hT0, hT1⟩
      simp only [List.length_set]
      exact hl
    · unfold ring
      simp only []
      rw [hAB, ← hA, set_split, rotate_after, List.append_assoc, ht]
  · have hm0 : 0 ≤ (rc.Head + 1) % rc.bucketCount := Int.emod_nonneg _ (by omega)
    have hm1 : (rc.Head + 1) % rc.bucketCount < rc.bucketCount :=
      Int.emod_lt_of_pos _ (by omega)
    have hlt' : ((rc.Head + 1) % rc.bucketCount).toNat < rc.Buckets.length := by omega
    obtain ⟨A', x, B', hAB', hA', _⟩ := split_at rc.Buckets _ hlt'
    have hrot : rc.Buckets.rotate (rc.Head.toNat + 1) = rc.Buckets.rotate A'.length := by
      by_cases hwrap : rc.Head + 1 < rc.bucketCount
      · rw [hA', Int.emod_eq_of_lt (by omega) hwrap]
        congr 1
        omega
      · have heq : rc.Head + 1 = rc.bucketCount := by omega
        have hz : A'.length = 0 := by rw [hA', heq, Int.emod_self]; rfl
        have hfull : rc.Head.toNat + 1 = rc.Buckets.length := by omega
        rw [hz, hfull, List.rotate_length, List.rotate_zero]
    have hring' : ring rc = x :: (B' ++ A') := by
      unfold ring
      rw [hrot]
      conv_lhs => rw [hAB']
      rw [rotate_at]
    refine ⟨_, B ++ A, b, Mark_eq_new rc t b (by omega) (by omega) h0 hb ht, ?_, hring,
      Or.inr ⟨ht, rfl, x, B' ++ A', hring', ?_⟩⟩
    · refine ⟨rfl, ?_, hm0, hm1, ?_, ?_⟩
      · simp only [List.length_set]
        exact hl
      · show 0 ≤ (if (rc.Head + 1) % rc.bucketCount = rc.Tail
          then (rc.Tail + 1) % rc.bucketCount else rc.Tail)
        split
        · exact Int.emod_nonneg _ (by omega)
        · exact hT0
      · show (if (rc.Head + 1) % rc.bucketCount = rc.Tail
          then (rc.Tail + 1) % rc.bucketCount else rc.Tail) < rc.bucketCount
        split
        · exact Int.emod_lt_of_pos _ (by omega)
        · exact hT1
    · unfold ring
      simp only []
      rw [← hA']
      conv_lhs => rw [hAB']
      rw [set_split, rotate_after, List.append_assoc]

theorem NewRateCounter_ok (n : Int) (hn : 1 ≤ n) :
    ∃ rc, NewRateCounter n = .ok rc ∧ WF n rc ∧
      ring rc = List.replicate n.toNat ⟨0, 0⟩ := by
  refine ⟨_, by unfold NewRateCounter; rw [if_neg (by omega)], ?_, ?_⟩
  · refine ⟨rfl, ?_, le_refl _, by show (0 : Int) < n; omega, le_refl _,
      by show (0 : Int) < n; omega⟩
    simp only [List.length_replicate]
    omega
  · unfold ring
    exact List.rotate_replicate _ _ _

theorem markAll_append (rc : RateCounter) (ts us : List Int) :
    markAll rc (ts ++ us) =
      match markAll rc ts with
      | .error e => .error e
      | .ok rc' => markAll rc' us := by
  induction ts generalizing rc with
  | nil => rfl
  | cons t ts ih =>
    simp only [List.cons_append, markAll]
    cases Mark rc t with
    | error e => rfl
    | ok rc' => exact ih rc'

/-- Induction over a run of `Mark` calls: a property `I` of the ring and of the readings
marked so far that both kinds of step preserve holds at the end of the run.  `ok hist t`
is what is known of a reading `t` that follows the readings `hist`. -/
theorem markAll_invariant (n : Int) (I : List Counter → List Int → Prop)
    (ok : List Int → Int → Prop)
    (hbump : ∀ (Q : List Counter) (b : Counter) (t : Int) (hist : List Int),
      I (Q ++ [b]) hist → b.Timestamp = t → ok hist t →
      I (Q ++ [⟨t, b.Count + 1⟩]) (hist ++ [t]))
    (hnew : ∀ (a : Counter) (Q Q0 : List Counter) (b : Counter) (t : Int) (hist : List Int),
      I (a :: Q) hist → a :: Q = Q0 ++ [b] → b.Timestamp ≠ t → ok hist t →
      I (Q ++ [⟨t, 1⟩]) (hist ++ [t])) :
    ∀ (ts : List Int) (rc : RateCounter) (hist : List Int), WF n rc → I (ring rc) hist →
      (∀ pre t post, ts = pre ++ t :: post → ok (hist ++ pre) t) →
      ∃ rc', markAll rc ts = .ok rc' ∧ WF n rc' ∧ I (ring rc') (hist ++ ts) := by
  intro ts
  induction ts with
  | nil =>
    intro rc hist hwf hI _
    exact ⟨rc, rfl, hwf, by rw [List.append_nil]; exact hI⟩
  | cons t ts ih =>
    intro rc hist hwf hI hok
    have hokt : ok hist t := by
      have := hok [] t ts rfl
      rwa [List.append_nil] at this
    obtain ⟨rc1, Q, b, hmark, hwf1, hring, hcase⟩ := Mark_ring hwf t
    have hI1 : I (ring rc1) (hist ++ [t]) := by
      rcases hcase with ⟨hbt, _, hr1⟩ | ⟨hbt, _, a, Q', hra, hr1⟩
      · rw [hr1]
        exact hbump Q b t hist (hring ▸ hI) hbt hokt
      · rw [hr1]
        exact hnew a Q' Q b t hist (hra ▸ hI) (by rw [← hra, hring]) hbt hokt
    obtain ⟨rc', hrun, hwf', hI'⟩ := ih rc1 (hist ++ [t]) hwf1 hI1 (by
      intro pre u post hsplit
      have := hok (t :: pre) u post (by rw [hsplit]; rfl)
      rwa [List.append_assoc, List.singleton_append])
    refine ⟨rc', ?_, hwf', ?_⟩
    · simp only [markAll, hmark]
      exact hrun
    · rwa [List.append_assoc, List.singleton_append] at hI'

/-! ## The invariant of a run under a clock that never steps back -/

theorem count_snoc_of_ne (hist : List Int) (t s : Int) (h : s ≠ t) :
    (hist ++ [t]).count s = hist.count s := by
  rw [List.count_append, List.count_singleton]
  have : (t == s) = false := by
    rw [beq_eq_false_iff_ne]
    exact fun e => h e.symm
  rw [this]
  rfl

theorem count_snoc_self (hist : List Int) (t : Int) :
    (hist ++ [t]).count t = hist.count t + 1 := by
  rw [List.count_append, List.count_singleton_self]

theorem Retained_initial (k : Nat) : Retained (List.replicate k ⟨0, 0⟩) [] where
  count_eq := by
    intro c hc
    rw [List.eq_of_mem_replicate hc]
    rfl
  ordered := by
    rw [List.pairwise_replicate]
    exact Or.inr (Or.inl rfl)
  stamp := by
    intro c hc
    rw [List.eq_of_mem_replicate hc]
    exact Or.inl rfl
  evicted := by
    intro s hs
    cases hs
  newest := by
    intro _ _ _ s hs
    cases hs
  pos := by
    intro s hs
    cases hs

theorem Retained_bump (Q : List Counter) (b : Counter) (t : Int) (hist : List Int)
    (h : Retained (Q ++ [b]) hist) (hbt : b.Timestamp = t) (hok : Later hist t) :
    Retained (Q ++ [⟨t, b.Count + 1⟩]) (hist ++ [t]) := by
  obtain ⟨ht1, htmax⟩ := hok
  have hord := List.pairwise_append.mp h.ordered
  have hQne : ∀ c ∈ Q, c.Timestamp ≠ t := by
    intro c hc
    have := hord.2.2 c hc b (List.mem_singleton_self b)
    omega
  refine ⟨?_, ?_, ?_, ?_, ?_, ?_⟩
  · intro c hc
    rcases List.mem_append.mp hc with hcQ | hcb
    · rw [count_snoc_of_ne _ _ _ (hQne c hcQ)]
      exact h.count_eq c (List.mem_append_left _ hcQ)
    · rw [List.mem_singleton.mp hcb]
      show b.Count + 1 = (((hist ++ [t]).count t : Nat) : Int)
      rw [count_snoc_self, h.count_eq b (List.mem_append_right _ (List.mem_singleton_self b)),
        hbt]
      rfl
  · rw [List.pairwise_append]
    refine ⟨hord.1, List.pairwise_singleton _ _, ?_⟩
    intro c hc d hd
    rw [List.mem_singleton.mp hd]
    have := hord.2.2 c hc b (List.mem_singleton_self b)
    show c.Timestamp = 0 ∨ c.Timestamp < t
    omega
  · intro c hc
    rcases List.mem_append.mp hc with hcQ | hcb
    · rcases h.stamp c (List.mem_append_left _ hcQ) with h0 | hm
      · exact Or.inl h0
      · exact Or.inr (List.mem_append_left _ hm)
    · rw [List.mem_singleton.mp hcb]
      exact Or.inr (List.mem_append_right _ (List.mem_singleton_self t))
  · intro s hs
    rcases List.mem_append.mp hs with hsh | hst
    · rcases h.evicted s hsh with ⟨c, hc, hcs⟩ | hall
      · rcases List.mem_append.mp hc with hcQ | hcb
        · exact Or.inl ⟨c, List.mem_append_left _ hcQ, hcs⟩
        · refine Or.inl ⟨⟨t, b.Count + 1⟩, List.mem_append_right _ (List.mem_singleton_self _), ?_⟩
          rw [List.mem_singleton.mp hcb] at hcs
          show t = s
          omega
      · refine Or.inr ?_
        intro c hc
        rcases List.mem_append.mp hc with hcQ | hcb
        · exact hall c (List.mem_append_left _ hcQ)
        · rw [List.mem_singleton.mp hcb]
          have := hall b (List.mem_append_right _ (List.mem_singleton_self b))
          show s < t
          omega
    · exact Or.inl ⟨⟨t, b.Count + 1⟩, List.mem_append_right _ (List.mem_singleton_self _),
        (List.mem_singleton.mp hst).symm⟩
  · intro Q' b' hQ' s hs
    have hb' : b' = ⟨t, b.Count + 1⟩ := by
      have := (List.append_inj' hQ' rfl).2
      exact (List.singleton_inj.mp this).symm
    rw [hb']
    show s ≤ t
    rcases List.mem_append.mp hs with hsh | hst
    · exact htmax s hsh
    · rw [List.mem_singleton.mp hst]
  · intro s hs
    rcases List.mem_append.mp hs with hsh | hst
    · exact h.pos s hsh
    · rw [List.mem_singleton.mp hst]
      exact ht1

theorem Retained_new (a : Counter) (Q Q0 : List Counter) (b : Counter) (t : Int)
    (hist : List Int) (h : Retained (a :: Q) hist) (hlast : a :: Q = Q0 ++ [b])
    (hbt : b.Timestamp ≠ t) (hok : Later hist t) :
    Retained (Q ++ [⟨t, 1⟩]) (hist ++ [t]) := by
  obtain ⟨ht1, htmax⟩ := hok
  have hbmem : b ∈ a :: Q := by
    rw [hlast]
    exact List.mem_append_right _ (List.mem_singleton_self b)
  have hfresh : t ∉ hist := by
    intro hth
    have h1 := h.newest Q0 b hlast t hth
    rcases h.stamp b hbmem with h0 | hm
    · omega
    · have := htmax _ hm
      omega
  have hlt : ∀ c ∈ a :: Q, c.Timestamp < t := by
    intro c hc
    rcases h.stamp c hc with h0 | hm
    · omega
    · have h1 := htmax _ hm
      have h2 : c.Timestamp ≠ t := fun e => hfresh (e ▸ hm)
      omega
  have hsl : ∀ s ∈ hist, s < t := by
    intro s hs
    have h1 := htmax s hs
    have h2 : s ≠ t := fun e => hfresh (e ▸ hs)
    omega
  have hord := List.pairwise_cons.mp h.ordered
  refine ⟨?_, ?_, ?_, ?_, ?_, ?_⟩
  · intro c hc
    rcases List.mem_append.mp hc with hcQ | hcb
    · have hne : c.Timestamp ≠ t := by
        have := hlt c (List.mem_cons_of_mem _ hcQ)
        omega
      rw [count_snoc_of_ne _ _ _ hne]
      exact h.count_eq c (List.mem_cons_of_mem _ hcQ)
    · rw [List.mem_singleton.mp hcb]
      show (1 : Int) = (((hist ++ [t]).count t : Nat) : Int)
      rw [count_snoc_self, List.count_eq_zero_of_not_mem hfresh]
      rfl
  · rw [List.pairwise_append]
    refine ⟨hord.2, List.pairwise_singleton _ _, ?_⟩
    intro c hc d hd
    rw [List.mem_singleton.mp hd]
    exact Or.inr (hlt c (List.mem_cons_of_mem _ hc))
  · intro c hc
    rcases List.mem_append.mp hc with hcQ | hcb
    · rcases h.stamp c (List.mem_cons_of_mem _ hcQ) with h0 | hm
      · exact Or.inl h0
      · exact Or.inr (List.mem_append_left _ hm)
    · rw [List.mem_singleton.mp hcb]
      exact Or.inr (List.mem_append_right _ (List.mem_singleton_self t))
  · intro s hs
    rcases List.mem_append.mp hs with hsh | hst
    · have hs1 := h.pos s hsh
      have hst := hsl s hsh
      rcases h.evicted s hsh with ⟨c, hc, hcs⟩ | hall
      · rcases List.mem_cons.mp hc with hca | hcQ
        · refine Or.inr ?_
          intro d hd
          rcases List.mem_append.mp hd with hdQ | hdb
          · have := hord.1 d hdQ
            rw [← hca, hcs] at this
            omega
          · rw [List.mem_singleton.mp hdb]
            exact hst
        · exact Or.inl ⟨c, List.mem_append_left _ hcQ, hcs⟩
      · refine Or.inr ?_
        intro d hd
        rcases List.mem_append.mp hd with hdQ | hdb
        · exact hall d (List.mem_cons_of_mem _ hdQ)
        · rw [List.mem_singleton.mp hdb]
          exact hst
    · exact Or.inl ⟨⟨t, 1⟩, List.mem_append_right _ (List.mem_singleton_self _),
        (List.mem_singleton.mp hst).symm⟩
  · intro Q' b' hQ' s hs
    have hb' : b' = ⟨t, 1⟩ := by
      have := (List.append_inj' hQ' rfl).2
      exact (List.singleton_inj.mp this).symm
    rw [hb']
    show s ≤ t
    rcases List.mem_append.mp hs with hsh | hst
    · exact htmax s hsh
    · rw [List.mem_singleton.mp hst]
  · intro s hs
    rcases List.mem_append.mp hs with hsh | hst
    · exact h.pos s hsh
    · rw [List.mem_singleton.mp hst]
      exact ht1

theorem Later_of_sorted (ts : List Int) (hs : ts.Pairwise (· ≤ ·)) (hp : ∀ t ∈ ts, 1 ≤ t) :
    ∀ pre t post, ts = pre ++ t :: post → Later ([] ++ pre) t := by
  intro pre t post hsplit
  rw [List.nil_append]
  refine ⟨hp t (by rw [hsplit]; exact List.mem_append_right _ (List.mem_cons_self _ _)), ?_⟩
  intro s hspre
  rw [hsplit] at hs
  exact (List.pairwise_append.mp hs).2.2 s hspre t (List.mem_cons_self _ _)

/-- A run of `Mark` calls at non-decreasing readings, all at least `1`, on a fresh counter
of capacity `n ≥ 1` succeeds and leaves the ring in the state `Retained` describes. -/
theorem run_retained (n : Int) (hn : 1 ≤ n) (ts : List Int) (hs : ts.Pairwise (· ≤ ·))
    (hp : ∀ t ∈ ts, 1 ≤ t) :
    ∃ rc, run n ts = .ok rc ∧ WF n rc ∧ Retained (ring rc) ts := by
  obtain ⟨rc0, hnew, hwf0, hring0⟩ := NewRateCounter_ok n hn
  obtain ⟨rc, hrun, hwf, hI⟩ := markAll_invariant n Retained Later Retained_bump Retained_new
    ts rc0 [] hwf0 (by rw [hring0]; exact Retained_initial _) (Later_of_sorted ts hs hp)
  refine ⟨rc, ?_, hwf, by rwa [List.nil_append] at hI⟩
  unfold run
  rw [hnew]
  exact hrun

/-- A second the ring still holds has fewer newer distinct readings than the ring has
slots. -/
theorem Retained_newer_lt (R : List Counter) (hist : List Int) (h : Retained R hist)
    (c : Counter) (hc : c ∈ R) (hs : c.Timestamp ∈ hist) :
    newer hist c.Timestamp < R.length := by
  obtain ⟨A, B, hAB⟩ := List.append_of_mem hc
  have hs1 := h.pos _ hs
  have hord := List.pairwise_append.mp (hAB ▸ h.ordered)
  have hsub : hist.toFinset.filter (fun r => c.Timestamp < r) ⊆
      (B.map Counter.Timestamp).toFinset := by
    intro r hr
    rw [Finset.mem_filter, List.mem_toFinset] at hr
    rw [List.mem_toFinset, List.mem_map]
    rcases h.evicted r hr.1 with ⟨d, hd, hdr⟩ | hall
    · rw [hAB] at hd
      rcases List.mem_append.mp hd with hdA | hdcB
      · have := hord.2.2 d hdA c (List.mem_cons_self _ _)
        omega
      · rcases List.mem_cons.mp hdcB with hdc | hdB
        · rw [hdc] at hdr
          omega
        · exact ⟨d, hdB, hdr⟩
    · have := hall c hc
      omega
  have h1 := Finset.card_le_card hsub
  have h2 := List.toFinset_card_le (B.map Counter.Timestamp)
  have h3 : R.length = A.length + (B.length + 1) := by
    rw [hAB, List.length_append, List.length_cons]
  rw [List.length_map] at h2
  unfold newer
  omega

/-- A marked second the ring no longer holds has at least as many newer distinct readings
as the ring has slots. -/
theorem Retained_newer_ge (R : List Counter) (hist : List Int) (h : Retained R hist)
    (s : Int) (hs : s ∈ hist) (hno : ∀ c ∈ R, c.Timestamp ≠ s) :
    R.length ≤ newer hist s := by
  have hs1 := h.pos _ hs
  have hall : ∀ c ∈ R, s < c.Timestamp := by
    rcases h.evicted s hs with ⟨c, hc, hcs⟩ | hall
    · exact absurd hcs (hno c hc)
    · exact hall
  have hsub : (R.map Counter.Timestamp).toFinset ⊆
      hist.toFinset.filter (fun r => s < r) := by
    intro r hr
    rw [List.mem_toFinset, List.mem_map] at hr
    obtain ⟨c, hc, hcr⟩ := hr
    rw [Finset.mem_filter, List.mem_toFinset, ← hcr]
    have hlt := hall c hc
    refine ⟨?_, hlt⟩
    rcases h.stamp c hc with h0 | hm
    · omega
    · exact hm
  have hnodup : (R.map Counter.Timestamp).Nodup := by
    rw [List.Nodup, List.pairwise_map]
    refine List.Pairwise.imp_of_mem ?_ h.ordered
    intro a b ha _ hab
    have := hall a ha
    omega
  have h1 := Finset.card_le_card hsub
  rw [List.toFinset_card_of_nodup hnodup, List.length_map] at h1
  exact h1

theorem recordedCount_expected (n : Int) (rc : RateCounter) (ts : List Int) (hwf : WF n rc)
    (h : Retained (ring rc) ts) (s : Int) :
    recordedCount rc.Buckets s = expectedCount n ts s := by
  have hlen : ((ring rc).length : Int) = n := by
    unfold ring
    rw [List.length_rotate]
    exact hwf.2.1
  have hmem : ∀ c, c ∈ rc.Buckets ↔ c ∈ ring rc := fun c => List.mem_rotate.symm
  unfold expectedCount
  by_cases hex : ∃ c ∈ rc.Buckets, c.Timestamp = s
  · have hrec : recordedCount rc.Buckets s = (ts.count s : Int) := by
      apply recordedCount_of_agree s _ rc.Buckets _ hex
      intro b hb hbs
      rw [← hbs]
      exact h.count_eq b ((hmem b).mp hb)
    rw [hrec]
    by_cases hs : s ∈ ts
    · obtain ⟨c, hc, hcs⟩ := hex
      have := Retained_newer_lt _ _ h c ((hmem c).mp hc) (hcs ▸ hs)
      rw [hcs] at this
      rw [if_pos ⟨hs, by omega⟩]
    · rw [if_neg (fun hh => hs hh.1), List.count_eq_zero_of_not_mem hs]
      rfl
  · have hno : ∀ c ∈ rc.Buckets, c.Timestamp ≠ s := fun c hc hcs => hex ⟨c, hc, hcs⟩
    rw [recordedCount_of_absent _ _ hno]
    by_cases hs : s ∈ ts
    · have := Retained_newer_ge _ _ h s hs (fun c hc => hno c ((hmem c).mpr hc))
      rw [if_neg (fun hh => by omega)]
    · rw [if_neg (fun hh => hs hh.1)]

/-- The histogram of a run under a clock that never steps back, entry by entry. -/
theorem histogram_of_retained (n : Int) (rc : RateCounter) (ts : List Int) (hwf : WF n rc)
    (h : Retained (ring rc) ts) (now numSeconds : Int) (hn : 0 ≤ numSeconds) :
    GetHistogram rc now numSeconds = .ok ((List.range numSeconds.toNat).map fun (i : Nat) =>
      expectedCount n ts (now - numSeconds + (i : Int))) := by
  have hbc := hwf.1
  have hl := hwf.2.1
  rw [GetHistogram_eq rc now numSeconds (by omega) hn]
  have htake : rc.Buckets.take rc.bucketCount.toNat = rc.Buckets := by
    apply List.take_of_length_le
    omega
  rw [htake]
  congr 1
  apply List.map_congr_left
  intro i _
  exact recordedCount_expected n rc ts hwf h _

theorem run_append (n : Int) (ts us : List Int) (rc : RateCounter)
    (h : run n ts = .ok rc) : run n (ts ++ us) = markAll rc us := by
  unfold run at h ⊢
  cases hnew : NewRateCounter n with
  | error e => rw [hnew] at h; cases h
  | ok rc0 =>
    rw [hnew] at h
    simp only [] at h ⊢
    rw [markAll_append, h]

theorem runHistogram_of_retained (n : Int) (hn : 1 ≤ n) (ts : List Int)
    (hs : ts.Pairwise (· ≤ ·)) (hp : ∀ t ∈ ts, 1 ≤ t) (now numSeconds : Int)
    (h0 : 0 ≤ numSeconds) :
    runHistogram n ts now numSeconds = .ok ((List.range numSeconds.toNat).map
      fun (i : Nat) => expectedCount n ts (now - numSeconds + (i : Int))) := by
  obtain ⟨rc, hrun, hwf, hret⟩ := run_retained n hn ts hs hp
  unfold runHistogram
  rw [hrun]
  exact histogram_of_retained n rc ts hwf hret now numSeconds h0

theorem getElem?_map_range (f : Nat → Int) (m i : Nat) (hi : i < m) :
    ((List.range m).map f)[i]? = some (f i) := by
  rw [List.getElem?_map, List.getElem?_range hi]
  rfl

/-- Over the mathematical integers: after marks at non-decreasing readings, all at least
`1`, on a fresh counter of capacity `n ≥ 1`, element `i` of `GetHistogram(numSeconds)`
is the number of marks made at second `s = now - numSeconds + i` when `s` is one of the
`n` largest distinct readings (it was marked and fewer than `n` distinct readings are
greater), and `0` otherwise. -/
theorem histogram_counts_retained_seconds (n : Int) (hn : 1 ≤ n) (ts : List Int)
    (hs : ts.Pairwise (· ≤ ·)) (hp : ∀ t ∈ ts, 1 ≤ t) (now numSeconds : Int) (i : Nat)
    (hi : (i : Int) < numSeconds) :
    ∃ hist, runHistogram n ts now numSeconds = .ok hist ∧
      hist[i]? = some
        (if now - numSeconds + i ∈ ts ∧ (newer ts (now - numSeconds + i) : Int) < n
         then (ts.count (now - numSeconds + i) : Int) else 0) := by
  refine ⟨_, runHistogram_of_retained n hn ts hs hp now numSeconds (by omega), ?_⟩
  rw [getElem?_map_range _ _ _ (by omega)]
  rfl

/-! ## Runs under an arbitrary clock -/

theorem Seen_initial (k : Nat) : Seen (List.replicate k ⟨0, 0⟩) [] := by
  intro c hc
  rw [List.eq_of_mem_replicate hc]
  exact Or.inl ⟨rfl, rfl⟩

theorem Seen_bump (Q : List Counter) (b : Counter) (t : Int) (hist : List Int)
    (h : Seen (Q ++ [b]) hist) (_ : b.Timestamp = t) (_ : True) :
    Seen (Q ++ [⟨t, b.Count + 1⟩]) (hist ++ [t]) := by
  intro c hc
  rcases List.mem_append.mp hc with hcQ | hcb
  · rcases h c (List.mem_append_left _ hcQ) with h0 | hm
    · exact Or.inl h0
    · exact Or.inr (List.mem_append_left _ hm)
  · rw [List.mem_singleton.mp hcb]
    exact Or.inr (List.mem_append_right _ (List.mem_singleton_self t))

theorem Seen_new (a : Counter) (Q Q0 : List Counter) (b : Counter) (t : Int)
    (hist : List Int) (h : Seen (a :: Q) hist) (_ : a :: Q = Q0 ++ [b])
    (_ : b.Timestamp ≠ t) (_ : True) :
    Seen (Q ++ [⟨t, 1⟩]) (hist ++ [t]) := by
  intro c hc
  rcases List.mem_append.mp hc with hcQ | hcb
  · rcases h c (List.mem_cons_of_mem _ hcQ) with h0 | hm
    · exact Or.inl h0
    · exact Or.inr (List.mem_append_left _ hm)
  · rw [List.mem_singleton.mp hcb]
    exact Or.inr (List.mem_append_right _ (List.mem_singleton_self t))

/-- A run of `Mark` calls at arbitrary readings on a fresh counter of capacity `n ≥ 1`
succeeds, and every slot is then the initial `{0, 0}` or stamped with a marked reading. -/
theorem run_seen (n : Int) (hn : 1 ≤ n) (ts : List Int) :
    ∃ rc, run n ts = .ok rc ∧ WF n rc ∧ Seen (ring rc) ts := by
  obtain ⟨rc0, hnew, hwf0, hring0⟩ := NewRateCounter_ok n hn
  obtain ⟨rc, hrun, hwf, hI⟩ := markAll_invariant n Seen (fun _ _ => True) Seen_bump Seen_new
    ts rc0 [] hwf0 (by rw [hring0]; exact Seen_initial _) (fun _ _ _ _ => trivial)
  refine ⟨rc, ?_, hwf, by rwa [List.nil_append] at hI⟩
  unfold run
  rw [hnew]
  exact hrun

/-- Over the mathematical integers: after marks at an arbitrary finite sequence of readings
on a fresh counter of capacity `n ≥ 1`, element `i` of `GetHistogram(numSeconds)` is `0`
whenever no mark was made at second `now - numSeconds + i`. -/
theorem gap_zero_fill (n : Int) (hn : 1 ≤ n) (ts : List Int) (now numSeconds : Int)
    (i : Nat) (hi : (i : Int) < numSeconds) (hno : now - numSeconds + i ∉ ts) :
    ∃ hist, runHistogram n ts now numSeconds = .ok hist ∧ hist[i]? = some 0 := by
  obtain ⟨rc, hrun, hwf, hseen⟩ := run_seen n hn ts
  have hbc := hwf.1
  have hl := hwf.2.1
  have htake : rc.Buckets.take rc.bucketCount.toNat = rc.Buckets := by
    apply List.take_of_length_le
    omega
  refine ⟨_, by
    unfold runHistogram
    rw [hrun]
    exact GetHistogram_eq rc now numSeconds (by omega) (by omega), ?_⟩
  rw [getElem?_map_range _ _ _ (by omega), htake]
  congr 1
  by_cases hex : ∃ c ∈ rc.Buckets, c.Timestamp = now - numSeconds + i
  · apply recordedCount_of_agree _ _ rc.Buckets _ hex
    intro b hb hbs
    rcases hseen b (List.mem_rotate.mpr hb) with h0 | hm
    · exact h0.2
    · exact absurd (hbs ▸ hm) hno
  · exact recordedCount_of_absent _ _ (fun c hc hcs => hex ⟨c, hc, hcs⟩)

/-! ## Eviction and same-second coalescing -/

theorem newer_append_le (ts ext : List Int) (s : Int) :
    newer ts s ≤ newer (ts ++ ext) s := by
  unfold newer
  apply Finset.card_le_card
  intro r hr
  rw [Finset.mem_filter, List.mem_toFinset] at hr ⊢
  exact ⟨List.mem_append_left _ hr.1, hr.2⟩

/-- C7: once more than `n` distinct readings were marked (non-decreasing, all at least
`1`), a marked second `s` that is not among the `n` largest distinct readings stays
unrecoverable: after every further run of marks with non-decreasing readings, every
`GetHistogram` whose window contains `s` reports `0` at the position of `s`. -/
theorem evicted_second_unrecoverable (n : Int) (hn : 1 ≤ n) (ts : List Int)
    (hp : ∀ t ∈ ts, 1 ≤ t) (hmore : n < (ts.toFinset.card : Int)) (s : Int) (hs : s ∈ ts)
    (hold : ¬ (newer ts s : Int) < n) (ext : List Int)
    (hsorted : (ts ++ ext).Pairwise (· ≤ ·)) (hpe : ∀ t ∈ ext, 1 ≤ t)
    (now numSeconds : Int) (i : Nat) (hi : (i : Int) < numSeconds)
    (hsi : now - numSeconds + i = s) :
    ∃ hist, runHistogram n (ts ++ ext) now numSeconds = .ok hist ∧ hist[i]? = some 0 := by
  have hpall : ∀ t ∈ ts ++ ext, 1 ≤ t := by
    intro t ht
    rcases List.mem_append.mp ht with h | h
    · exact hp t h
    · exact hpe t h
  refine ⟨_, runHistogram_of_retained n hn (ts ++ ext) hsorted hpall now numSeconds
    (by omega), ?_⟩
  rw [getElem?_map_range _ _ _ (by omega), hsi]
  congr 1
  unfold expectedCount
  have := newer_append_le ts ext s
  rw [if_neg (fun hh => by omega)]

theorem evicted_second_unrecoverable_witness :
    (∃ hist, runHistogram 2 ([1, 2, 2, 3] ++ [3, 7]) 8 8 = .ok hist ∧ hist[1]? = some 0) ∧
    runHistogram 2 ([1, 2, 2, 3] ++ [3, 7]) 8 8 = .ok [0, 0, 0, 2, 0, 0, 0, 1] :=
  ⟨evicted_second_unrecoverable 2 (by decide) [1, 2, 2, 3] (by decide) (by decide) 1
    (by decide) (by decide) [3, 7] (by decide) (by decide) 8 8 1 (by decide) (by decide), rfl⟩

/-- Further marks at the reading of the last slot in ring order only add to its count. -/
theorem markAll_same_second (n : Int) (T : Int) :
    ∀ (j : Nat) (rc : RateCounter) (Q : List Counter) (c : Int), WF n rc →
      ring rc = Q ++ [⟨T, c⟩] →
      ∃ rc', markAll rc (List.replicate j T) = .ok rc' ∧ WF n rc' ∧ rc'.Head = rc.Head ∧
        ring rc' = Q ++ [⟨T, c + j⟩] := by
  intro j
  induction j with
  | zero =>
    intro rc Q c hwf hring
    refine ⟨rc, rfl, hwf, rfl, ?_⟩
    rw [hring]
    simp
  | succ j ih =>
    intro rc Q c hwf hring
    obtain ⟨rc1, Q1, b, hmark, hwf1, hring1, hcase⟩ := Mark_ring hwf T
    have hQb := List.append_inj' (hring1.symm.trans hring) rfl
    have hb : b = ⟨T, c⟩ := List.singleton_inj.mp hQb.2
    rcases hcase with ⟨_, hhead, hr1⟩ | ⟨hne, _⟩
    · rw [hQb.1, hb] at hr1
      obtain ⟨rc', hrun, hwf', hhead', hr'⟩ := ih rc1 Q (c + 1) hwf1 hr1
      refine ⟨rc', ?_, hwf', by rw [hhead', hhead], ?_⟩
      · simp only [List.replicate_succ, markAll, hmark]
        exact hrun
      · rw [hr']
        congr 3
        push_cast
        omega
    · rw [hb] at hne
      exact absurd rfl hne

theorem newer_of_max (ts : List Int) (T : Int) (h : ∀ t ∈ ts, t ≤ T) : newer ts T = 0 := by
  unfold newer
  rw [Finset.card_eq_zero, Finset.filter_eq_empty_iff]
  intro r hr
  have := h r (List.mem_toFinset.mp hr)
  omega

/-- C5: on a counter reached from `NewRateCounter(n)` by marks at non-decreasing readings,
all at least `1`, `k ≥ 1` consecutive marks at a second `T` greater than all earlier
readings advance `Head` by exactly one slot (mod `n`), leave `{Timestamp: T, Count: k}` in
the bucket at `Head`, and make every `GetHistogram` at `now > T` with
`numSeconds ≥ now - T` report `k` at index `T - (now - numSeconds)`. -/
theorem same_second_coalescing (n : Int) (hn : 1 ≤ n) (ts : List Int)
    (hs : ts.Pairwise (· ≤ ·)) (hp : ∀ t ∈ ts, 1 ≤ t) (T : Int) (hT : ∀ t ∈ ts, t < T)
    (hT1 : 1 ≤ T) (k : Nat) (hk : 1 ≤ k) :
    ∃ rc rc', run n ts = .ok rc ∧ markAll rc (List.replicate k T) = .ok rc' ∧
      rc'.Head = (rc.Head + 1) % n ∧
      rc'.Buckets[rc'.Head.toNat]? = some ⟨T, k⟩ ∧
      ∀ now numSeconds : Int, T < now → now - T ≤ numSeconds →
        ∃ hist, GetHistogram rc' now numSeconds = .ok hist ∧
          hist[(T - (now - numSeconds)).toNat]? = some (k : Int) := by
  obtain ⟨rc, hrun, hwf, hret⟩ := run_retained n hn ts hs hp
  obtain ⟨k', rfl⟩ : ∃ k', k = k' + 1 := ⟨k - 1, by omega⟩
  -- the first mark at `T` opens a new slot
  obtain ⟨rc1, Q, b, hmark, hwf1, hring, hcase⟩ := Mark_ring hwf T
  have hbmem : b ∈ ring rc := by
    rw [hring]
    exact List.mem_append_right _ (List.mem_singleton_self b)
  have hbT : b.Timestamp ≠ T := by
    rcases hret.stamp b hbmem with h0 | hm
    · omega
    · have := hT _ hm
      omega
  rcases hcase with ⟨heq, _⟩ | ⟨_, hhead1, a, Q', _, hr1⟩
  · exact absurd heq hbT
  -- the other marks at `T` stay in that slot
  obtain ⟨rc', hrest, hwf', hhead', hr'⟩ := markAll_same_second n T k' rc1 Q' 1 hwf1 hr1
  have hall : markAll rc (List.replicate (k' + 1) T) = .ok rc' := by
    simp only [List.replicate_succ, markAll, hmark]
    exact hrest
  -- the whole run is again a run under a clock that never steps back
  have hsorted : (ts ++ List.replicate (k' + 1) T).Pairwise (· ≤ ·) := by
    rw [List.pairwise_append]
    refine ⟨hs, ?_, ?_⟩
    · rw [List.pairwise_replicate]
      exact Or.inr (le_refl T)
    · intro t ht u hu
      rw [List.eq_of_mem_replicate hu]
      exact le_of_lt (hT t ht)
  have hpall : ∀ t ∈ ts ++ List.replicate (k' + 1) T, 1 ≤ t := by
    intro t ht
    rcases List.mem_append.mp ht with h | h
    · exact hp t h
    · rw [List.eq_of_mem_replicate h]
      exact hT1
  obtain ⟨rc2, hrun2, _, hret2⟩ := run_retained n hn _ hsorted hpall
  have hrc2 : rc2 = rc' := by
    rw [run_append n ts _ rc hrun, hall] at hrun2
    exact (Except.ok.inj hrun2).symm
  rw [hrc2] at hret2
  refine ⟨rc, rc', hrun, hall, by rw [hhead', hhead1], ?_, ?_⟩
  · obtain ⟨Q2, b2, hring2, hb2⟩ := ring_last hwf'
    rw [hb2]
    have := (List.append_inj' (hring2.symm.trans hr') rfl).2
    rw [List.singleton_inj.mp this]
    congr 2
    push_cast
    omega
  · intro now numSeconds hnow hwin
    refine ⟨_, histogram_of_retained n rc' _ hwf' hret2 now numSeconds (by omega), ?_⟩
    rw [getElem?_map_range _ _ _ (by omega)]
    congr 1
    have hidx : now - numSeconds + ((T - (now - numSeconds)).toNat : Int) = T := by omega
    rw [hidx]
    unfold expectedCount
    have hmem : T ∈ ts ++ List.replicate (k' + 1) T :=
      List.mem_append_right _ (by simp)
    have hnewer : newer (ts ++ List.replicate (k' + 1) T) T = 0 := by
      apply newer_of_max
      intro t ht
      rcases List.mem_append.mp ht with h | h
      · exact le_of_lt (hT t h)
      · rw [List.eq_of_mem_replicate h]
    have hfresh : T ∉ ts := fun h => absurd (hT T h) (lt_irrefl T)
    rw [if_pos ⟨hmem, by rw [hnewer]; omega⟩, List.count_append,
      List.count_eq_zero_of_not_mem hfresh, List.count_replicate_self]
    push_cast
    omega

theorem same_second_coalescing_witness :
    (∃ rc rc', run 3 [1, 1, 4] = .ok rc ∧ markAll rc (List.replicate 2 6) = .ok rc' ∧
      rc'.Head = (rc.Head + 1) % 3 ∧
      rc'.Buckets[rc'.Head.toNat]? = some ⟨6, (2 : Nat)⟩ ∧
      ∀ now numSeconds : Int, 6 < now → now - 6 ≤ numSeconds →
        ∃ hist, GetHistogram rc' now numSeconds = .ok hist ∧
          hist[((6 : Int) - (now - numSeconds)).toNat]? = some ((2 : Nat) : Int)) ∧
    run 3 ([1, 1, 4] ++ List.replicate 2 6) =
      .ok ⟨[⟨6, 2⟩, ⟨1, 2⟩, ⟨4, 1⟩], 0, 1, 3⟩ :=
  ⟨same_second_coalescing 3 (by decide) [1, 1, 4] (by decide) (by decide) 6 (by decide)
    (by decide) 2 (by decide), rfl⟩

/-! ## The read path leaves the counter alone -/

theorem indexLoopSt_eq (is : List Nat) (rc : RateCounter) (m : GoMap) :
    indexLoopSt is (rc, m) = (rc, indexLoop rc.Buckets is m) := by
  induction is generalizing m with
  | nil => rfl
  | cons i is ih =>
    simp only [indexLoopSt, indexLoop]
    cases index rc.Buckets (i : Int) with
    | error e => rfl
    | ok b => exact ih _

/-- C11: `GetHistogram` leaves the counter as it was (the buckets with their `Timestamp`
and `Count`, `Head`, `Tail` and `bucketCount`), whatever the state, the clock reading and
`numSeconds`, also when the call panics; its outcome is the one of `GetHistogram`. -/
theorem GetHistogram_frame (rc : RateCounter) (now numSeconds : Int) :
    (GetHistogramSt rc now numSeconds).1 = rc ∧
      (GetHistogramSt rc now numSeconds).1.Buckets = rc.Buckets ∧
      (GetHistogramSt rc now numSeconds).1.Head = rc.Head ∧
      (GetHistogramSt rc now numSeconds).1.Tail = rc.Tail ∧
      (GetHistogramSt rc now numSeconds).1.bucketCount = rc.bucketCount ∧
      (GetHistogramSt rc now numSeconds).2 = GetHistogram rc now numSeconds := by
  have h1 : (GetHistogramSt rc now numSeconds).1 = rc := by
    unfold GetHistogramSt
    rw [indexLoopSt_eq]
    cases indexLoop rc.Buckets (List.range rc.bucketCount.toNat) [] with
    | error e => rfl
    | ok idx =>
      simp only []
      split <;> rfl
  refine ⟨h1, by rw [h1], by rw [h1], by rw [h1], by rw [h1], ?_⟩
  unfold GetHistogramSt GetHistogram buildIndex
  rw [indexLoopSt_eq]
  cases indexLoop rc.Buckets (List.range rc.bucketCount.toNat) [] with
  | error e => rfl
  | ok idx =>
    simp only []
    split <;> rfl

/-! ## Safety of the write path -/

/-- C12: every state reached from `NewRateCounter(n)`, `n ≥ 1`, by a finite sequence of
`Mark` calls at arbitrary readings has exactly `n` buckets, `0 ≤ Head < n` and
`0 ≤ Tail < n`; both bucket accesses of `Mark` are in range there and the next `Mark`
succeeds, whatever its reading. -/
theorem Mark_never_fails (n : Int) (hn : 1 ≤ n) (ts : List Int) :
    ∃ rc, run n ts = .ok rc ∧ (rc.Buckets.length : Int) = n ∧ rc.bucketCount = n ∧
      0 ≤ rc.Head ∧ rc.Head < n ∧ 0 ≤ rc.Tail ∧ rc.Tail < n ∧
      (∃ b, index rc.Buckets rc.Head = .ok b) ∧
      (∃ h c, goMod (rc.Head + 1) rc.bucketCount = .ok h ∧ index rc.Buckets h = .ok c) ∧
      ∀ t, ∃ rc', Mark rc t = .ok rc' := by
  obtain ⟨rc, hrun, hwf, _⟩ := run_seen n hn ts
  obtain ⟨_, b, _, hb⟩ := ring_last hwf
  obtain ⟨hbc, hl, h0, h1, hT0, hT1⟩ := id hwf
  have hm0 : 0 ≤ (rc.Head + 1) % rc.bucketCount := Int.emod_nonneg _ (by omega)
  have hm1 : (rc.Head + 1) % rc.bucketCount < rc.bucketCount :=
    Int.emod_lt_of_pos _ (by omega)
  have hlt : ((rc.Head + 1) % rc.bucketCount).toNat < rc.Buckets.length := by omega
  refine ⟨rc, hrun, hl, hbc, h0, h1, hT0, hT1, ⟨b, index_ok _ _ b h0 hb⟩,
    ⟨_, _, goMod_ok _ _ (by omega) (by omega),
      index_ok _ _ _ hm0 (List.getElem?_eq_getElem hlt)⟩, ?_⟩
  intro t
  obtain ⟨rc', _, _, hmark, _⟩ := Mark_ring hwf t
  exact ⟨rc', hmark⟩

theorem Mark_never_fails_witness :
    (∃ rc, run 2 [7, 3, 3, 0, -4] = .ok rc ∧ (rc.Buckets.length : Int) = 2 ∧
      rc.bucketCount = 2 ∧ 0 ≤ rc.Head ∧ rc.Head < 2 ∧ 0 ≤ rc.Tail ∧ rc.Tail < 2 ∧
      (∃ b, index rc.Buckets rc.Head = .ok b) ∧
      (∃ h c, goMod (rc.Head + 1) rc.bucketCount = .ok h ∧ index rc.Buckets h = .ok c) ∧
      ∀ t, ∃ rc', Mark rc t = .ok rc') ∧
    run 2 [7, 3, 3, 0, -4] = .ok ⟨[⟨-4, 1⟩, ⟨0, 1⟩], 0, 1, 2⟩ :=
  ⟨Mark_never_fails 2 (by decide) [7, 3, 3, 0, -4], rfl⟩

/-- C16: `NewRateCounter(0)` succeeds without any validation and returns a counter with no
buckets and `Head = Tail = 0`; every `Mark` on that counter panics on the access
`Buckets[Head]` and records nothing. -/
theorem NewRateCounter_zero_capacity :
    NewRateCounter 0 = .ok ⟨[], 0, 0, 0⟩ ∧
      index ([] : List Counter) 0 = .error .indexOutOfRange ∧
      ∀ t, Mark ⟨[], 0, 0, 0⟩ t = .error .indexOutOfRange :=
  ⟨rfl, rfl, fun _ => rfl⟩

/-! ## The histogram never over-reports -/

theorem count_le_count_snoc (hist : List Int) (t s : Int) :
    hist.count s ≤ (hist ++ [t]).count s := by
  rw [List.count_append]
  exact Nat.le_add_right _ _

theorem Bounded_initial (k : Nat) : Bounded (List.replicate k ⟨0, 0⟩) [] := by
  intro c hc
  rw [List.eq_of_mem_replicate hc]
  exact ⟨le_refl _, le_refl _⟩

theorem Bounded_bump (Q : List Counter) (b : Counter) (t : Int) (hist : List Int)
    (h : Bounded (Q ++ [b]) hist) (hbt : b.Timestamp = t) (_ : True) :
    Bounded (Q ++ [⟨t, b.Count + 1⟩]) (hist ++ [t]) := by
  intro c hc
  rcases List.mem_append.mp hc with hcQ | hcb
  · have h1 := h c (List.mem_append_left _ hcQ)
    have h2 := count_le_count_snoc hist t c.Timestamp
    omega
  · rw [List.mem_singleton.mp hcb]
    have h1 := h b (List.mem_append_right _ (List.mem_singleton_self b))
    rw [hbt] at h1
    show 0 ≤ b.Count + 1 ∧ b.Count + 1 ≤ (((hist ++ [t]).count t : Nat) : Int)
    rw [count_snoc_self]
    omega

theorem Bounded_new (a : Counter) (Q Q0 : List Counter) (b : Counter) (t : Int)
    (hist : List Int) (h : Bounded (a :: Q) hist) (_ : a :: Q = Q0 ++ [b])
    (_ : b.Timestamp ≠ t) (_ : True) :
    Bounded (Q ++ [⟨t, 1⟩]) (hist ++ [t]) := by
  intro c hc
  rcases List.mem_append.mp hc with hcQ | hcb
  · have h1 := h c (List.mem_cons_of_mem _ hcQ)
    have h2 := count_le_count_snoc hist t c.Timestamp
    omega
  · rw [List.mem_singleton.mp hcb]
    show (0 : Int) ≤ 1 ∧ (1 : Int) ≤ (((hist ++ [t]).count t : Nat) : Int)
    rw [count_snoc_self]
    omega

theorem run_bounded (n : Int) (hn : 1 ≤ n) (ts : List Int) :
    ∃ rc, run n ts = .ok rc ∧ WF n rc ∧ Bounded (ring rc) ts := by
  obtain ⟨rc0, hnew, hwf0, hring0⟩ := NewRateCounter_ok n hn
  obtain ⟨rc, hrun, hwf, hI⟩ := markAll_invariant n Bounded (fun _ _ => True)
    Bounded_bump Bounded_new ts rc0 [] hwf0 (by rw [hring0]; exact Bounded_initial _)
    (fun _ _ _ _ => trivial)
  refine ⟨rc, ?_, hwf, by rwa [List.nil_append] at hI⟩
  unfold run
  rw [hnew]
  exact hrun

theorem recordedCount_between (s lo hi : Int) (hlo : lo ≤ 0) (hhi : 0 ≤ hi)
    (bs : List Counter) (h : ∀ b ∈ bs, b.Timestamp = s → lo ≤ b.Count ∧ b.Count ≤ hi) :
    lo ≤ recordedCount bs s ∧ recordedCount bs s ≤ hi := by
  have key : ∀ (l : List Counter) (acc : Int),
      (∀ b ∈ l, b.Timestamp = s → lo ≤ b.Count ∧ b.Count ≤ hi) → lo ≤ acc ∧ acc ≤ hi →
      lo ≤ l.foldl (fun acc b => if b.Timestamp = s then b.Count else acc) acc ∧
        l.foldl (fun acc b => if b.Timestamp = s then b.Count else acc) acc ≤ hi := by
    intro l
    induction l with
    | nil => intro acc _ hacc; exact hacc
    | cons b l ih =>
      intro acc hl hacc
      rw [List.foldl_cons]
      apply ih _ (fun d hd => hl d (List.mem_cons_of_mem _ hd))
      by_cases hbs : b.Timestamp = s
      · rw [if_pos hbs]
        exact hl b (List.mem_cons_self _ _) hbs
      · rw [if_neg hbs]
        exact hacc
  exact key bs 0 h ⟨hlo, hhi⟩

/-- Over the mathematical integers: after marks at an arbitrary finite sequence of readings
(not necessarily monotone) on a fresh counter of capacity `n ≥ 1`, every element `i` of
`GetHistogram(numSeconds)` lies between `0` and the number of marks made at second `now
- numSeconds + i`. -/
theorem histogram_never_over_reports (n : Int) (hn : 1 ≤ n) (ts : List Int)
    (now numSeconds : Int) (i : Nat) (hi : (i : Int) < numSeconds) :
    ∃ hist v, runHistogram n ts now numSeconds = .ok hist ∧ hist[i]? = some v ∧
      0 ≤ v ∧ v ≤ (ts.count (now - numSeconds + i) : Int) := by
  obtain ⟨rc, hrun, hwf, hb⟩ := run_bounded n hn ts
  have hbc := hwf.1
  have hl := hwf.2.1
  have htake : rc.Buckets.take rc.bucketCount.toNat = rc.Buckets := by
    apply List.take_of_length_le
    omega
  have hbound := recordedCount_between (now - numSeconds + i) 0
    (ts.count (now - numSeconds + i) : Int) (le_refl _) (by omega) rc.Buckets (by
      intro b hbmem hbs
      have := hb b (List.mem_rotate.mpr hbmem)
      rw [hbs] at this
      exact this)
  refine ⟨_, recordedCount rc.Buckets (now - numSeconds + i), by
    unfold runHistogram
    rw [hrun]
    exact GetHistogram_eq rc now numSeconds (by omega) (by omega), ?_, hbound.1, hbound.2⟩
  rw [getElem?_map_range _ _ _ (by omega), htake]

/-! ## Behaviour outside the intended use: a clock that steps back, second zero -/

/-- C19: a clock that steps back makes the counter under-report: with capacity `3` and
marks at the readings `5, 6, 5` (not non-decreasing, two distinct values) the state holds
two buckets with the non-zero `Timestamp` `5`, and `GetHistogram(2)` at `now = 7` returns
`[1, 1]` although two marks were made at second `5`. -/
theorem clock_step_back_under_reports :
    ∃ (n : Int) (ts : List Int) (rc : RateCounter) (hist : List Int) (a b : Counter),
      ¬ ts.Pairwise (· ≤ ·) ∧ (ts.toFinset.card : Int) ≤ n ∧
      run n ts = .ok rc ∧
      rc.Buckets[0]? = some a ∧ rc.Buckets[1]? = some b ∧
      a.Timestamp = b.Timestamp ∧ a.Timestamp ≠ 0 ∧
      GetHistogram rc 7 2 = .ok hist ∧ hist = [1, 1] ∧
      hist[0]? = some 1 ∧ (1 : Int) < (ts.count (7 - 2 + 0) : Int) ∧
      n = 3 ∧ ts = [5, 6, 5] :=
  ⟨3, [5, 6, 5], ⟨[⟨5, 1⟩, ⟨5, 1⟩, ⟨6, 1⟩], 0, 1, 3⟩, [1, 1], ⟨5, 1⟩, ⟨5, 1⟩,
    by decide, by decide, rfl, rfl, rfl, rfl, by decide, rfl, rfl, rfl, by decide, rfl, rfl⟩

theorem markAll_second_zero (rest : List Counter) (n : Int) :
    ∀ (j : Nat) (c : Int), markAll ⟨⟨0, c⟩ :: rest, 0, 0, n⟩ (List.replicate j 0) =
      .ok ⟨⟨0, c + j⟩ :: rest, 0, 0, n⟩ := by
  intro j
  induction j with
  | zero => intro c; simp [markAll]
  | succ j ih =>
    intro c
    have hmark : Mark ⟨⟨0, c⟩ :: rest, 0, 0, n⟩ 0 = .ok ⟨⟨0, c + 1⟩ :: rest, 0, 0, n⟩ :=
      Mark_eq_same ⟨⟨0, c⟩ :: rest, 0, 0, n⟩ 0 ⟨0, c⟩ (le_refl _)
        (List.getElem?_cons_zero ..) rfl
    simp only [List.replicate_succ, markAll, hmark]
    rw [ih (c + 1)]
    congr 4
    push_cast
    omega

theorem recordedCount_sentinel (k : Int) (m : Nat) :
    recordedCount (⟨0, k⟩ :: List.replicate (m + 1) ⟨0, 0⟩) 0 = 0 := by
  have hlast : (⟨0, k⟩ :: List.replicate (m + 1) (⟨0, 0⟩ : Counter))[m + 1]? =
      some ⟨0, 0⟩ := by
    rw [List.getElem?_cons_succ, List.getElem?_replicate]
    simp
  refine recordedCount_of_last _ 0 (m + 1) ⟨0, 0⟩ hlast rfl ?_
  intro j' b' hj' hb'
  have hlen := (List.getElem?_eq_some_iff.mp hb').1
  simp only [List.length_cons, List.length_replicate] at hlen
  omega

/-- C18: marks at Unix second `0` are lost to the sentinel: after `k ≥ 1` marks at reading
`0` on a fresh counter of capacity `n`, bucket `0` is `{Timestamp: 0, Count: k}` and
`Head` is still `0`; for `n ≥ 2` the last bucket is still the never-written `{0, 0}` and
every `GetHistogram` at `now ≥ 1` with `numSeconds ≥ now` reports `0`, not `k`, at the
position of second `0`; for `n = 1` the same query reports `k`. -/
theorem second_zero_lost_to_sentinel (n : Int) (hn : 1 ≤ n) (k : Nat) (hk : 1 ≤ k)
    (now numSeconds : Int) (hnow : 1 ≤ now) (hwin : now ≤ numSeconds) :
    ∃ rc hist, run n (List.replicate k 0) = .ok rc ∧
      rc.Buckets[0]? = some ⟨0, k⟩ ∧ rc.Head = 0 ∧
      (2 ≤ n → rc.Buckets[(n - 1).toNat]? = some ⟨0, 0⟩) ∧
      GetHistogram rc now numSeconds = .ok hist ∧
      now - numSeconds + ((numSeconds - now).toNat : Int) = 0 ∧
      hist[(numSeconds - now).toNat]? = some (if n = 1 then (k : Int) else 0) := by
  obtain ⟨m, hm⟩ : ∃ m : Nat, n.toNat = m + 1 := ⟨n.toNat - 1, by omega⟩
  have hrun : run n (List.replicate k 0) =
      .ok ⟨⟨0, k⟩ :: List.replicate m ⟨0, 0⟩, 0, 0, n⟩ := by
    unfold run NewRateCounter
    rw [if_neg (by omega), hm, List.replicate_succ]
    simp only []
    rw [markAll_second_zero]
    congr 4
    omega
  have hhist := GetHistogram_eq ⟨⟨0, k⟩ :: List.replicate m ⟨0, 0⟩, 0, 0, n⟩ now numSeconds
    (by simp only [List.length_cons, List.length_replicate]; omega) (by omega)
  have htake : (⟨0, (k : Int)⟩ :: List.replicate m (⟨0, 0⟩ : Counter)).take n.toNat =
      ⟨0, k⟩ :: List.replicate m ⟨0, 0⟩ := by
    apply List.take_of_length_le
    simp only [List.length_cons, List.length_replicate]
    omega
  have hidx : now - numSeconds + ((numSeconds - now).toNat : Int) = 0 := by omega
  refine ⟨_, _, hrun, List.getElem?_cons_zero .., rfl, ?_, hhist, hidx, ?_⟩
  · intro h2
    obtain ⟨m', hm'⟩ : ∃ m' : Nat, m = m' + 1 := ⟨m - 1, by omega⟩
    have hi : (n - 1).toNat = m' + 1 := by omega
    show (⟨0, (k : Int)⟩ :: List.replicate m (⟨0, 0⟩ : Counter))[(n - 1).toNat]? = _
    rw [hi, List.getElem?_cons_succ, List.getElem?_replicate]
    simp [hm']
  · rw [getElem?_map_range _ _ _ (by omega), hidx]
    show some (recordedCount ((⟨0, (k : Int)⟩ :: List.replicate m (⟨0, 0⟩ : Counter)).take
      n.toNat) 0) = _
    rw [htake]
    congr 1
    by_cases h1 : n = 1
    · have hm0 : m = 0 := by omega
      rw [if_pos h1, hm0]
      rfl
    · obtain ⟨m', hm'⟩ : ∃ m' : Nat, m = m' + 1 := ⟨m - 1, by omega⟩
      rw [if_neg h1, hm']
      exact recordedCount_sentinel _ _

theorem second_zero_lost_to_sentinel_witness :
    (∃ rc hist, run 3 (List.replicate 4 0) = .ok rc ∧
      rc.Buckets[0]? = some ⟨0, (4 : Nat)⟩ ∧ rc.Head = 0 ∧
      ((2 : Int) ≤ 3 → rc.Buckets[((3 : Int) - 1).toNat]? = some ⟨0, 0⟩) ∧
      GetHistogram rc 2 5 = .ok hist ∧
      (2 : Int) - 5 + ((((5 : Int) - 2).toNat : Nat) : Int) = 0 ∧
      hist[((5 : Int) - 2).toNat]? = some (if (3 : Int) = 1 then ((4 : Nat) : Int) else 0)) ∧
    runHistogram 3 (List.replicate 4 0) 2 5 = .ok [0, 0, 0, 0, 0] ∧
    runHistogram 1 (List.replicate 4 0) 2 5 = .ok [0, 0, 0, 4, 0] :=
  ⟨second_zero_lost_to_sentinel 3 (by decide) 4 (by decide) 2 5 (by decide) (by decide),
    rfl, rfl⟩

/-! ## A mark in the in-progress second -/

/-- C20: after at least one mark at each of the readings `T+1, ..., T+n` (in clock order)
on a fresh counter of capacity `n ≥ 1`, `GetHistogram(n)` at `now = T+n+1` returns the true
count of second `T+1` at index `0`; after one or more further marks at reading `T+n+1` the
same query returns `0` at index `0`, although second `T+1` was marked and lies inside the
window. -/
theorem in_progress_mark_evicts (n : Int) (hn : 1 ≤ n) (T : Int) (hT : 0 ≤ T)
    (pre : List Int) (hs : pre.Pairwise (· ≤ ·))
    (hrange : ∀ t ∈ pre, T + 1 ≤ t ∧ t ≤ T + n)
    (hall : ∀ r, T + 1 ≤ r → r ≤ T + n → r ∈ pre) (m : Nat) (hm : 1 ≤ m) :
    ∃ before after,
      runHistogram n pre (T + n + 1) n = .ok before ∧
      before[0]? = some (pre.count (T + 1) : Int) ∧ 1 ≤ pre.count (T + 1) ∧
      runHistogram n (pre ++ List.replicate m (T + n + 1)) (T + n + 1) n = .ok after ∧
      after[0]? = some 0 := by
  have hfirst : T + 1 ∈ pre := hall (T + 1) (le_refl _) (by omega)
  have hppos : ∀ t ∈ pre, 1 ≤ t := fun t ht => by have := hrange t ht; omega
  have hsorted : (pre ++ List.replicate m (T + n + 1)).Pairwise (· ≤ ·) := by
    rw [List.pairwise_append]
    refine ⟨hs, ?_, ?_⟩
    · rw [List.pairwise_replicate]
      exact Or.inr (le_refl _)
    · intro t ht u hu
      rw [List.eq_of_mem_replicate hu]
      have := hrange t ht
      omega
  have hpall : ∀ t ∈ pre ++ List.replicate m (T + n + 1), 1 ≤ t := by
    intro t ht
    rcases List.mem_append.mp ht with h | h
    · exact hppos t h
    · rw [List.eq_of_mem_replicate h]
      omega
  have hidx : T + n + 1 - n + ((0 : Nat) : Int) = T + 1 := by
    push_cast
    omega
  -- before the mark of the in-progress second, fewer than `n` readings are newer
  have hlt : (newer pre (T + 1) : Int) < n := by
    have hsub : pre.toFinset.filter (fun r => T + 1 < r) ⊆ Finset.Icc (T + 2) (T + n) := by
      intro r hr
      rw [Finset.mem_filter, List.mem_toFinset] at hr
      rw [Finset.mem_Icc]
      have := hrange r hr.1
      omega
    have hcard := Finset.card_le_card hsub
    rw [Int.card_Icc] at hcard
    unfold newer
    omega
  -- after it, `n` readings are newer
  have hge : n ≤ (newer (pre ++ List.replicate m (T + n + 1)) (T + 1) : Int) := by
    have hsub : Finset.Icc (T + 2) (T + n + 1) ⊆
        (pre ++ List.replicate m (T + n + 1)).toFinset.filter (fun r => T + 1 < r) := by
      intro r hr
      rw [Finset.mem_Icc] at hr
      rw [Finset.mem_filter, List.mem_toFinset, List.mem_append]
      refine ⟨?_, by omega⟩
      by_cases hlast : r = T + n + 1
      · right
        rw [hlast, List.mem_replicate]
        exact ⟨by omega, rfl⟩
      · left
        exact hall r (by omega) (by omega)
    have hcard := Finset.card_le_card hsub
    rw [Int.card_Icc] at hcard
    unfold newer
    omega
  refine ⟨_, _, runHistogram_of_retained n hn pre hs hppos (T + n + 1) n (by omega), ?_,
    List.count_pos_iff.mpr hfirst,
    runHistogram_of_retained n hn _ hsorted hpall (T + n + 1) n (by omega), ?_⟩
  · rw [getElem?_map_range _ _ _ (by omega), hidx]
    unfold expectedCount
    rw [if_pos ⟨hfirst, hlt⟩]
  · rw [getElem?_map_range _ _ _ (by omega), hidx]
    unfold expectedCount
    rw [if_neg (fun hh => by omega)]

theorem in_progress_mark_evicts_witness :
    (∃ before after,
      runHistogram 2 [5, 5, 5, 6] (4 + 2 + 1) 2 = .ok before ∧
      before[0]? = some ((([5, 5, 5, 6] : List Int).count (4 + 1) : Nat) : Int) ∧
      1 ≤ ([5, 5, 5, 6] : List Int).count (4 + 1) ∧
      runHistogram 2 ([5, 5, 5, 6] ++ List.replicate 1 (4 + 2 + 1)) (4 + 2 + 1) 2
        = .ok after ∧
      after[0]? = some 0) ∧
    runHistogram 2 [5, 5, 5, 6] 7 2 = .ok [3, 1] ∧
    runHistogram 2 [5, 5, 5, 6, 7] 7 2 = .ok [0, 1] :=
  ⟨in_progress_mark_evicts 2 (by decide) 4 (by decide) [5, 5, 5, 6] (by decide) (by decide)
    (by intro r h1 h2; have : r = 5 ∨ r = 6 := by omega
        rcases this with h | h <;> rw [h] <;> decide) 1 (by decide), rfl, rfl⟩

/-! ## Timestamps of the buckets under a clock that never steps back -/

theorem Distinct_initial (k : Nat) : Distinct (List.replicate k ⟨0, 0⟩) [] where
  stamp := by
    intro c hc
    rw [List.eq_of_mem_replicate hc]
    exact Or.inl rfl
  nodup := by
    rw [List.pairwise_replicate]
    exact Or.inr (fun _ => rfl)
  newest := by
    intro _ _ _ s hs
    cases hs

theorem Distinct_bump (Q : List Counter) (b : Counter) (t : Int) (hist : List Int)
    (h : Distinct (Q ++ [b]) hist) (hbt : b.Timestamp = t) (hok : NotBefore hist t) :
    Distinct (Q ++ [⟨t, b.Count + 1⟩]) (hist ++ [t]) := by
  have hnd := List.pairwise_append.mp h.nodup
  refine ⟨?_, ?_, ?_⟩
  · intro c hc
    rcases List.mem_append.mp hc with hcQ | hcb
    · rcases h.stamp c (List.mem_append_left _ hcQ) with h0 | hm
      · exact Or.inl h0
      · exact Or.inr (List.mem_append_left _ hm)
    · rw [List.mem_singleton.mp hcb]
      exact Or.inr (List.mem_append_right _ (List.mem_singleton_self t))
  · rw [List.pairwise_append]
    refine ⟨hnd.1, List.pairwise_singleton _ _, ?_⟩
    intro c hc d hd
    rw [List.mem_singleton.mp hd]
    have := hnd.2.2 c hc b (List.mem_singleton_self b)
    rw [hbt] at this
    exact this
  · intro Q' b' hQ' s hs
    have hb' : b' = ⟨t, b.Count + 1⟩ := by
      have := (List.append_inj' hQ' rfl).2
      exact (List.singleton_inj.mp this).symm
    rw [hb']
    refine ⟨?_, List.mem_append_right _ (List.mem_singleton_self t)⟩
    show s ≤ t
    rcases List.mem_append.mp hs with hsh | hst
    · exact hok s hsh
    · rw [List.mem_singleton.mp hst]

theorem Distinct_new (a : Counter) (Q Q0 : List Counter) (b : Counter) (t : Int)
    (hist : List Int) (h : Distinct (a :: Q) hist) (hlast : a :: Q = Q0 ++ [b])
    (hbt : b.Timestamp ≠ t) (hok : NotBefore hist t) :
    Distinct (Q ++ [⟨t, 1⟩]) (hist ++ [t]) := by
  have hfresh : t ∉ hist := by
    intro hth
    have h1 := h.newest Q0 b hlast t hth
    have h2 := hok _ h1.2
    omega
  have hnd := List.pairwise_cons.mp h.nodup
  refine ⟨?_, ?_, ?_⟩
  · intro c hc
    rcases List.mem_append.mp hc with hcQ | hcb
    · rcases h.stamp c (List.mem_cons_of_mem _ hcQ) with h0 | hm
      · exact Or.inl h0
      · exact Or.inr (List.mem_append_left _ hm)
    · rw [List.mem_singleton.mp hcb]
      exact Or.inr (List.mem_append_right _ (List.mem_singleton_self t))
  · rw [List.pairwise_append]
    refine ⟨hnd.2, List.pairwise_singleton _ _, ?_⟩
    intro c hc d hd hcd
    rw [List.mem_singleton.mp hd] at hcd
    rcases h.stamp c (List.mem_cons_of_mem _ hc) with h0 | hm
    · exact h0
    · have hct : c.Timestamp = t := hcd
      exact absurd (hct ▸ hm) hfresh
  · intro Q' b' hQ' s hs
    have hb' : b' = ⟨t, 1⟩ := by
      have := (List.append_inj' hQ' rfl).2
      exact (List.singleton_inj.mp this).symm
    rw [hb']
    refine ⟨?_, List.mem_append_right _ (List.mem_singleton_self t)⟩
    show s ≤ t
    rcases List.mem_append.mp hs with hsh | hst
    · exact hok s hsh
    · rw [List.mem_singleton.mp hst]

theorem NotBefore_of_sorted (ts : List Int) (hs : ts.Pairwise (· ≤ ·)) :
    ∀ pre t post, ts = pre ++ t :: post → NotBefore ([] ++ pre) t := by
  intro pre t post hsplit s hspre
  rw [List.nil_append] at hspre
  rw [hsplit] at hs
  exact (List.pairwise_append.mp hs).2.2 s hspre t (List.mem_cons_self _ _)

theorem run_distinct (n : Int) (hn : 1 ≤ n) (ts : List Int) (hs : ts.Pairwise (· ≤ ·)) :
    ∃ rc, run n ts = .ok rc ∧ WF n rc ∧ Distinct (ring rc) ts := by
  obtain ⟨rc0, hnew, hwf0, hring0⟩ := NewRateCounter_ok n hn
  obtain ⟨rc, hrun, hwf, hI⟩ := markAll_invariant n Distinct NotBefore Distinct_bump
    Distinct_new ts rc0 [] hwf0 (by rw [hring0]; exact Distinct_initial _)
    (NotBefore_of_sorted ts hs)
  refine ⟨rc, ?_, hwf, by rwa [List.nil_append] at hI⟩
  unfold run
  rw [hnew]
  exact hrun

/-- C13: in every state reached from `NewRateCounter(n)`, `n ≥ 1`, by marks at
non-decreasing readings, two buckets at different indices have the same `Timestamp` only
when that `Timestamp` is the sentinel `0`. -/
theorem no_two_buckets_share_a_second (n : Int) (hn : 1 ≤ n) (ts : List Int)
    (hs : ts.Pairwise (· ≤ ·)) :
    ∃ rc, run n ts = .ok rc ∧
      ∀ (i j : Nat) (a b : Counter), i ≠ j → rc.Buckets[i]? = some a →
        rc.Buckets[j]? = some b → a.Timestamp = b.Timestamp → a.Timestamp = 0 := by
  obtain ⟨rc, hrun, _, hd⟩ := run_distinct n hn ts hs
  refine ⟨rc, hrun, ?_⟩
  have hsymm : ∀ {x y : Counter}, (x.Timestamp = y.Timestamp → x.Timestamp = 0) →
      (y.Timestamp = x.Timestamp → y.Timestamp = 0) := by
    intro x y hxy hyx
    rw [hyx]
    exact hxy hyx.symm
  have hpw : rc.Buckets.Pairwise (fun a b => a.Timestamp = b.Timestamp → a.Timestamp = 0) :=
    ((List.rotate_perm rc.Buckets (rc.Head.toNat + 1)).pairwise_iff hsymm).mp hd.nodup
  rw [List.pairwise_iff_getElem] at hpw
  intro i j a b hij ha hb hab
  obtain ⟨hi, hai⟩ := List.getElem?_eq_some_iff.mp ha
  obtain ⟨hj, hbj⟩ := List.getElem?_eq_some_iff.mp hb
  rcases Nat.lt_or_gt_of_ne hij with hlt | hgt
  · have := hpw i j hi hj hlt
    rw [hai, hbj] at this
    exact this hab
  · have := hpw j i hj hi hgt
    rw [hai, hbj] at this
    rw [hab]
    exact this hab.symm

theorem no_two_buckets_share_a_second_witness :
    (∃ rc, run 3 [-2, 0, 0, 4, 4, 9] = .ok rc ∧
      ∀ (i j : Nat) (a b : Counter), i ≠ j → rc.Buckets[i]? = some a →
        rc.Buckets[j]? = some b → a.Timestamp = b.Timestamp → a.Timestamp = 0) ∧
    run 3 [-2, 0, 0, 4, 4, 9] = .ok ⟨[⟨4, 2⟩, ⟨9, 1⟩, ⟨0, 2⟩], 1, 2, 3⟩ :=
  ⟨no_two_buckets_share_a_second 3 (by decide) [-2, 0, 0, 4, 4, 9] (by decide), rfl⟩

/-- C14: along a run of marks at non-decreasing readings, all at least `0`, on a fresh
counter of capacity `n ≥ 1`, no `Mark` replaces the `Timestamp` of a bucket by a smaller
one: for every step of the run (the marks `pre`, then the mark at `t`) and every bucket
index `j`, the `Timestamp` of bucket `j` after the step is at least the one before. -/
theorem bucket_timestamps_never_decrease (n : Int) (hn : 1 ≤ n) (pre : List Int) (t : Int)
    (hs : (pre ++ [t]).Pairwise (· ≤ ·)) (hp : ∀ u ∈ pre ++ [t], 0 ≤ u) :
    ∃ rc rc', run n pre = .ok rc ∧ Mark rc t = .ok rc' ∧
      (rc.Buckets.length : Int) = n ∧ (rc'.Buckets.length : Int) = n ∧
      ∀ (j : Nat) (b b' : Counter), rc.Buckets[j]? = some b → rc'.Buckets[j]? = some b' →
        b.Timestamp ≤ b'.Timestamp := by
  obtain ⟨rc, hrun, hwf, hseen⟩ := run_seen n hn pre
  obtain ⟨_, b0, _, hb0⟩ := ring_last hwf
  obtain ⟨hbc, hl, h0, h1, _, _⟩ := id hwf
  have ht0 : 0 ≤ t := hp t (List.mem_append_right _ (List.mem_singleton_self t))
  have hle : ∀ b ∈ rc.Buckets, b.Timestamp ≤ t := by
    intro b hb
    rcases hseen b (List.mem_rotate.mpr hb) with hz | hm
    · omega
    · exact (List.pairwise_append.mp hs).2.2 _ hm t (List.mem_singleton_self t)
  by_cases hbt : b0.Timestamp = t
  · refine ⟨rc, _, hrun, Mark_eq_same rc t b0 h0 hb0 hbt, hl, ?_, ?_⟩
    · simp only [List.length_set]
      exact hl
    · intro j b b' hb hb'
      by_cases hj : rc.Head.toNat = j
      · have hlt : rc.Head.toNat < rc.Buckets.length := by omega
        simp only [] at hb'
        rw [← hj, List.getElem?_set_self hlt] at hb'
        rw [← hj, hb0] at hb
        rw [← Option.some.inj hb, ← Option.some.inj hb']
      · simp only [] at hb'
        rw [List.getElem?_set_ne hj, hb] at hb'
        rw [Option.some.inj hb']
  · refine ⟨rc, _, hrun, Mark_eq_new rc t b0 (by omega) (by omega) h0 hb0 hbt, hl, ?_, ?_⟩
    · simp only [List.length_set]
      exact hl
    · intro j b b' hb hb'
      have hm0 : 0 ≤ (rc.Head + 1) % rc.bucketCount := Int.emod_nonneg _ (by omega)
      have hm1 : (rc.Head + 1) % rc.bucketCount < rc.bucketCount :=
        Int.emod_lt_of_pos _ (by omega)
      by_cases hj : ((rc.Head + 1) % rc.bucketCount).toNat = j
      · have hlt : ((rc.Head + 1) % rc.bucketCount).toNat < rc.Buckets.length := by omega
        simp only [] at hb'
        rw [← hj, List.getElem?_set_self hlt] at hb'
        rw [← Option.some.inj hb']
        exact hle b (List.getElem?_mem hb)
      · simp only [] at hb'
        rw [List.getElem?_set_ne hj, hb] at hb'
        rw [Option.some.inj hb']

theorem bucket_timestamps_never_decrease_witness :
    (∃ rc rc', run 2 [0, 3, 3, 4] = .ok rc ∧ Mark rc 6 = .ok rc' ∧
      (rc.Buckets.length : Int) = 2 ∧ (rc'.Buckets.length : Int) = 2 ∧
      ∀ (j : Nat) (b b' : Counter), rc.Buckets[j]? = some b → rc'.Buckets[j]? = some b' →
        b.Timestamp ≤ b'.Timestamp) ∧
    run 2 [0, 3, 3, 4] = .ok ⟨[⟨4, 1⟩, ⟨3, 2⟩], 0, 1, 2⟩ ∧
    run 2 ([0, 3, 3, 4] ++ [6]) = .ok ⟨[⟨4, 1⟩, ⟨6, 1⟩], 1, 0, 2⟩ :=
  ⟨bucket_timestamps_never_decrease 2 (by decide) [0, 3, 3, 4] 6 (by decide) (by decide),
    rfl, rfl⟩

/-! ## The position of `Tail` -/

/-- The slot after `Head`, the one the next new second overwrites, is the first in ring
order. -/
theorem ring_first {n : Int} {rc : RateCounter} (h : WF n rc) :
    ∃ a Q, ring rc = a :: Q ∧ rc.Buckets[((rc.Head + 1) % n).toNat]? = some a := by
  have hn := WF_pos h
  obtain ⟨hbc, hl, h0, h1, _, _⟩ := h
  have hm0 : 0 ≤ (rc.Head + 1) % n := Int.emod_nonneg _ (by omega)
  have hm1 : (rc.Head + 1) % n < n := Int.emod_lt_of_pos _ (by omega)
  have hlt : ((rc.Head + 1) % n).toNat < rc.Buckets.length := by omega
  obtain ⟨A, x, B, hAB, hA, hx⟩ := split_at rc.Buckets _ hlt
  have hrot : rc.Buckets.rotate (rc.Head.toNat + 1) = rc.Buckets.rotate A.length := by
    by_cases hwrap : rc.Head + 1 < n
    · rw [hA, Int.emod_eq_of_lt (by omega) hwrap]
      congr 1
      omega
    · have heq : rc.Head + 1 = n := by omega
      have hz : A.length = 0 := by rw [hA, heq, Int.emod_self]; rfl
      have hfull : rc.Head.toNat + 1 = rc.Buckets.length := by omega
      rw [hz, hfull, List.rotate_length, List.rotate_zero]
  refine ⟨x, B ++ A, ?_, hx⟩
  unfold ring
  rw [hrot]
  conv_lhs => rw [hAB]
  rw [rotate_at]

/-- One `Mark` in ring order, with what it does to `Tail`. -/
theorem Mark_ring_tail {n : Int} {rc : RateCounter} (h : WF n rc) (t : Int) :
    ∃ rc' Q b, Mark rc t = .ok rc' ∧ WF n rc' ∧ ring rc = Q ++ [b] ∧
      ((b.Timestamp = t ∧ rc'.Head = rc.Head ∧ rc'.Tail = rc.Tail ∧
          ring rc' = Q ++ [⟨t, b.Count + 1⟩]) ∨
       (b.Timestamp ≠ t ∧ rc'.Head = (rc.Head + 1) % n ∧
          rc'.Tail = (if (rc.Head + 1) % n = rc.Tail then (rc.Tail + 1) % n else rc.Tail) ∧
          ∃ a Q', ring rc = a :: Q' ∧ ring rc' = Q' ++ [⟨t, 1⟩])) := by
  have hn := WF_pos h
  obtain ⟨rc', Q, b, hmark, hwf', hring, hcase⟩ := Mark_ring h t
  obtain ⟨Q2, b2, hring2, hb2⟩ := ring_last h
  have hbb : b2 = b := List.singleton_inj.mp (List.append_inj' (hring2.symm.trans hring) rfl).2
  rw [hbb] at hb2
  obtain ⟨hbc, hl, h0, _, _, _⟩ := h
  refine ⟨rc', Q, b, hmark, hwf', hring, ?_⟩
  rcases hcase with ⟨hbt, hhead, hr⟩ | ⟨hbt, hhead, hex⟩
  · refine Or.inl ⟨hbt, hhead, ?_, hr⟩
    have heq := Mark_eq_same rc t b h0 hb2 hbt
    rw [hmark] at heq
    rw [Except.ok.inj heq]
  · refine Or.inr ⟨hbt, hhead, ?_, hex⟩
    have heq := Mark_eq_new rc t b (by omega) (by omega) h0 hb2 hbt
    rw [hmark] at heq
    rw [Except.ok.inj heq, hbc]

/-- Induction over a run of `Mark` calls for a property of the whole counter. -/
theorem markAll_state_invariant (n : Int) (I : RateCounter → List Int → Prop)
    (ok : List Int → Int → Prop)
    (hstep : ∀ (rc rc' : RateCounter) (t : Int) (hist : List Int), WF n rc → I rc hist →
      ok hist t → Mark rc t = .ok rc' → I rc' (hist ++ [t])) :
    ∀ (ts : List Int) (rc : RateCounter) (hist : List Int), WF n rc → I rc hist →
      (∀ pre t post, ts = pre ++ t :: post → ok (hist ++ pre) t) →
      ∃ rc', markAll rc ts = .ok rc' ∧ WF n rc' ∧ I rc' (hist ++ ts) := by
  intro ts
  induction ts with
  | nil =>
    intro rc hist hwf hI _
    exact ⟨rc, rfl, hwf, by rw [List.append_nil]; exact hI⟩
  | cons t ts ih =>
    intro rc hist hwf hI hok
    have hokt : ok hist t := by
      have := hok [] t ts rfl
      rwa [List.append_nil] at this
    obtain ⟨rc1, _, _, hmark, hwf1, _, _⟩ := Mark_ring hwf t
    have hI1 := hstep rc rc1 t hist hwf hI hokt hmark
    obtain ⟨rc', hrun, hwf', hI'⟩ := ih rc1 (hist ++ [t]) hwf1 hI1 (by
      intro pre u post hsplit
      have := hok (t :: pre) u post (by rw [hsplit]; rfl)
      rwa [List.append_assoc, List.singleton_append])
    refine ⟨rc', ?_, hwf', ?_⟩
    · simp only [markAll, hmark]
      exact hrun
    · rwa [List.append_assoc, List.singleton_append] at hI'

theorem TailPhase_step (n : Int) (rc rc' : RateCounter) (t : Int) (hist : List Int)
    (hwf : WF n rc) (hI : TailPhase n rc) (hok : Later hist t) (hmark : Mark rc t = .ok rc') :
    TailPhase n rc' := by
  have ht1 := hok.1
  obtain ⟨rc1, Q, b, hmark1, _, hring, hcase⟩ := Mark_ring_tail hwf t
  have hrc : rc1 = rc' := Except.ok.inj (hmark1.symm.trans hmark)
  rw [hrc] at hcase
  obtain ⟨_, _, h0, h1, _, _⟩ := hwf
  rcases hI with ⟨hT, hk, W, hW, hWnz⟩ | ⟨hT, hnz⟩
  · -- the ring has not wrapped yet
    rcases hcase with ⟨hbt, hhead, htail, hr⟩ | ⟨_, hhead, htail, a, Q', hra, hr⟩
    · have hWne : W ≠ [] := by
        intro hnil
        rw [hnil, List.append_nil] at hW
        have hb : b ∈ List.replicate (n - rc.Head).toNat (⟨0, 0⟩ : Counter) := by
          rw [← hW, hring]
          exact List.mem_append_right _ (List.mem_singleton_self b)
        rw [List.eq_of_mem_replicate hb] at hbt
        have : (0 : Int) = t := hbt
        omega
      rcases List.eq_nil_or_concat W with hnil | ⟨W0, b', hW0⟩
      · exact absurd hnil hWne
      · rw [List.concat_eq_append] at hW0
        have hsplit : Q ++ [b] =
            (List.replicate (n - rc.Head).toNat (⟨0, 0⟩ : Counter) ++ W0) ++ [b'] := by
          rw [← hring, hW, hW0, List.append_assoc]
        have hQ := (List.append_inj' hsplit rfl).1
        refine Or.inl ⟨by rw [htail, hT], by rw [hhead]; exact hk,
          W0 ++ [⟨t, b.Count + 1⟩], ?_, ?_⟩
        · rw [hr, hQ, hhead, List.append_assoc]
        · intro c hc
          rcases List.mem_append.mp hc with hcW | hcb
          · exact hWnz c (by rw [hW0]; exact List.mem_append_left _ hcW)
          · rw [List.mem_singleton.mp hcb]
            show t ≠ 0
            omega
    · obtain ⟨k', hk'⟩ : ∃ k' : Nat, (n - rc.Head).toNat = k' + 1 :=
        ⟨(n - rc.Head).toNat - 1, by omega⟩
      have hQ' : Q' = List.replicate k' (⟨0, 0⟩ : Counter) ++ W := by
        have := hra.symm.trans hW
        rw [hk', List.replicate_succ, List.cons_append] at this
        exact (List.cons.inj this).2
      have hnew : ∀ c ∈ W ++ [(⟨t, 1⟩ : Counter)], c.Timestamp ≠ 0 := by
        intro c hc
        rcases List.mem_append.mp hc with hcW | hcb
        · exact hWnz c hcW
        · rw [List.mem_singleton.mp hcb]
          show t ≠ 0
          omega
      by_cases hwrap : rc.Head + 1 < n
      · have hh : rc'.Head = rc.Head + 1 := by
          rw [hhead, Int.emod_eq_of_lt (by omega) hwrap]
        refine Or.inl ⟨?_, by omega, W ++ [⟨t, 1⟩], ?_, hnew⟩
        · rw [htail, ← hhead, hh, hT, if_neg (by omega)]
        · rw [hr, hQ', List.append_assoc]
          congr 2
          omega
      · have heq : rc.Head + 1 = n := by omega
        have hh : rc'.Head = 0 := by rw [hhead, heq, Int.emod_self]
        have hk0 : k' = 0 := by omega
        refine Or.inr ⟨?_, ?_⟩
        · rw [htail, ← hhead, hh, hT, if_pos rfl]
        · rw [hr, hQ', hk0]
          simpa using hnew
  · -- the ring has wrapped
    rcases hcase with ⟨_, hhead, htail, hr⟩ | ⟨_, hhead, htail, a, Q', hra, hr⟩
    · refine Or.inr ⟨by rw [htail, hhead, hT], ?_⟩
      intro c hc
      rw [hr] at hc
      rcases List.mem_append.mp hc with hcQ | hcb
      · exact hnz c (by rw [hring]; exact List.mem_append_left _ hcQ)
      · rw [List.mem_singleton.mp hcb]
        show t ≠ 0
        omega
    · refine Or.inr ⟨?_, ?_⟩
      · rw [htail, if_pos hT.symm, hhead, hT]
      · intro c hc
        rw [hr] at hc
        rcases List.mem_append.mp hc with hcQ | hcb
        · exact hnz c (by rw [hra]; exact List.mem_cons_of_mem _ hcQ)
        · rw [List.mem_singleton.mp hcb]
          show t ≠ 0
          omega

theorem run_tailPhase (n : Int) (hn : 1 ≤ n) (ts : List Int) (hs : ts.Pairwise (· ≤ ·))
    (hp : ∀ t ∈ ts, 1 ≤ t) :
    ∃ rc, run n ts = .ok rc ∧ WF n rc ∧ TailPhase n rc := by
  obtain ⟨rc0, hnew, hwf0, hring0⟩ := NewRateCounter_ok n hn
  have hrc0 : rc0 = ⟨List.replicate n.toNat ⟨0, 0⟩, 0, 0, n⟩ := by
    unfold NewRateCounter at hnew
    rw [if_neg (by omega)] at hnew
    exact (Except.ok.inj hnew).symm
  have hinit : TailPhase n rc0 := by
    refine Or.inl ⟨by rw [hrc0], by rw [hrc0]; show 1 ≤ (n - 0).toNat; omega, [], ?_, ?_⟩
    · rw [hring0, List.append_nil, hrc0]
      show _ = List.replicate (n - 0).toNat _
      rw [Int.sub_zero]
    · intro c hc
      cases hc
  obtain ⟨rc, hrun, hwf, hI⟩ := markAll_state_invariant n (fun rc _ => TailPhase n rc) Later
    (fun rc rc' t hist hwf hI hok hmark => TailPhase_step n rc rc' t hist hwf hI hok hmark)
    ts rc0 [] hwf0 hinit (Later_of_sorted ts hs hp)
  refine ⟨rc, ?_, hwf, hI⟩
  unfold run
  rw [hnew]
  exact hrun

/-- C15, as stated, fails: after the single mark at reading `1` on `NewRateCounter(2)` the
counter is `{Buckets: [{0, 0}, {1, 1}], Head: 1, Tail: 0}`, so `Buckets[Tail]` is the
never-written bucket, with `Count = 0`. -/
theorem Tail_not_oldest_before_wrap :
    run 2 [1] = .ok ⟨[⟨0, 0⟩, ⟨1, 1⟩], 1, 0, 2⟩ ∧
    ¬ (∀ (n : Int) (ts : List Int), 1 ≤ n → ts ≠ [] → ts.Pairwise (· ≤ ·) →
        (∀ t ∈ ts, 1 ≤ t) →
        ∃ rc b, run n ts = .ok rc ∧ rc.Buckets[rc.Tail.toNat]? = some b ∧ 1 ≤ b.Count ∧
          ∀ c ∈ rc.Buckets, 1 ≤ c.Count → b.Timestamp ≤ c.Timestamp) := by
  have hrun : run 2 [1] = .ok ⟨[⟨0, 0⟩, ⟨1, 1⟩], 1, 0, 2⟩ := rfl
  refine ⟨hrun, ?_⟩
  intro h
  obtain ⟨rc, b, hrc, hb, hcount, _⟩ := h 2 [1] (by decide) (by decide) (by decide) (by decide)
  rw [hrun] at hrc
  rw [← Except.ok.inj hrc] at hb
  have hb0 : b = ⟨0, 0⟩ := (Option.some.inj hb).symm
  rw [hb0] at hcount
  exact absurd hcount (by decide)

/-- C15, amended: once marks at non-decreasing readings, all at least `1`, have covered at
least `n` distinct seconds on a fresh counter of capacity `n ≥ 1`, `Tail` is the index of
the oldest bucket: every bucket has been written (`Count ≥ 1`), and the `Timestamp` of
`Buckets[Tail]` is the smallest of all. -/
theorem Tail_is_oldest_after_wrap (n : Int) (hn : 1 ≤ n) (ts : List Int)
    (hs : ts.Pairwise (· ≤ ·)) (hp : ∀ t ∈ ts, 1 ≤ t)
    (hfull : n ≤ (ts.toFinset.card : Int)) :
    ∃ rc b, run n ts = .ok rc ∧ rc.Buckets[rc.Tail.toNat]? = some b ∧ 1 ≤ b.Count ∧
      ∀ c ∈ rc.Buckets, 1 ≤ c.Count ∧ b.Timestamp ≤ c.Timestamp := by
  obtain ⟨rc, hrun, hwf, hret⟩ := run_retained n hn ts hs hp
  obtain ⟨rc2, hrun2, _, hphase⟩ := run_tailPhase n hn ts hs hp
  have hrc : rc2 = rc := Except.ok.inj (hrun2.symm.trans hrun)
  rw [hrc] at hphase
  have hlen : ((ring rc).length : Int) = n := by
    unfold ring
    rw [List.length_rotate]
    exact hwf.2.1
  rcases hphase with ⟨_, hk, W, hW, _⟩ | ⟨hT, hnz⟩
  · -- not wrapped: every marked second is still in the ring, fewer than `n` of them
    exfalso
    have hzero : (⟨0, 0⟩ : Counter) ∈ ring rc := by
      rw [hW]
      exact List.mem_append_left _ (List.mem_replicate.mpr ⟨by omega, rfl⟩)
    have hsub : ts.toFinset ⊆ (W.map Counter.Timestamp).toFinset := by
      intro s hsmem
      rw [List.mem_toFinset] at hsmem
      rw [List.mem_toFinset, List.mem_map]
      have hs1 := hret.pos s hsmem
      rcases hret.evicted s hsmem with ⟨c, hc, hcs⟩ | hall
      · rw [hW] at hc
        rcases List.mem_append.mp hc with hcz | hcW
        · rw [List.eq_of_mem_replicate hcz] at hcs
          have : (0 : Int) = s := hcs
          omega
        · exact ⟨c, hcW, hcs⟩
      · have : s < (0 : Int) := hall _ hzero
        omega
    have h1 := Finset.card_le_card hsub
    have h2 := List.toFinset_card_le (W.map Counter.Timestamp)
    rw [List.length_map] at h2
    have h3 : (ring rc).length = (n - rc.Head).toNat + W.length := by
      rw [hW, List.length_append, List.length_replicate]
    omega
  · -- wrapped: `Tail` is the first slot in ring order
    obtain ⟨a, Q, hring, ha⟩ := ring_first hwf
    have hcount : ∀ c ∈ ring rc, 1 ≤ c.Count := by
      intro c hc
      rw [hret.count_eq c hc]
      rcases hret.stamp c hc with h0 | hm
      · exact absurd h0 (hnz c hc)
      · have := List.count_pos_iff.mpr hm
        omega
    have hamem : a ∈ ring rc := by
      rw [hring]
      exact List.mem_cons_self _ _
    have hord := List.pairwise_cons.mp (hring ▸ hret.ordered)
    refine ⟨rc, a, hrun, by rw [hT]; exact ha, hcount a hamem, ?_⟩
    intro c hc
    have hcr : c ∈ ring rc := List.mem_rotate.mpr hc
    refine ⟨hcount c hcr, ?_⟩
    rw [hring] at hcr
    rcases List.mem_cons.mp hcr with hca | hcQ
    · rw [hca]
    · rcases hord.1 c hcQ with h0 | hlt
      · exact absurd h0 (hnz a hamem)
      · exact le_of_lt hlt

theorem Tail_is_oldest_after_wrap_witness :
    (∃ rc b, run 2 [1, 2, 2, 3] = .ok rc ∧ rc.Buckets[rc.Tail.toNat]? = some b ∧
      1 ≤ b.Count ∧ ∀ c ∈ rc.Buckets, 1 ≤ c.Count ∧ b.Timestamp ≤ c.Timestamp) ∧
    run 2 [1, 2, 2, 3] = .ok ⟨[⟨2, 2⟩, ⟨3, 1⟩], 1, 0, 2⟩ :=
  ⟨Tail_is_oldest_after_wrap 2 (by decide) [1, 2, 2, 3] (by decide) (by decide) (by decide),
    rfl⟩

/-! ## Go's wrapping arithmetic -/

theorem wrapInt64_of_range (x : Int) (hlo : minInt64 ≤ x) (hhi : x ≤ maxInt64) :
    wrapInt64 x = x := by
  unfold minInt64 at hlo
  unfold maxInt64 at hhi
  unfold wrapInt64
  omega

theorem wrapInt64_add_wrapInt64 (x y : Int) : wrapInt64 (wrapInt64 x + y) = wrapInt64 (x + y) := by
  unfold wrapInt64
  omega

/-- Where neither `start` nor a key `start + i` overflows, the wrapping `GetHistogram64` is
the `GetHistogram` over the mathematical integers. -/
theorem GetHistogram64_eq_of_no_wrap (rc : RateCounter) (now numSeconds : Int)
    (hlo : minInt64 ≤ now - numSeconds) (hhi : now ≤ maxInt64) :
    GetHistogram64 rc now numSeconds = GetHistogram rc now numSeconds := by
  unfold GetHistogram64 GetHistogram
  cases buildIndex rc with
  | error e => rfl
  | ok idx =>
    simp only []
    by_cases hneg : numSeconds < 0
    · rw [if_pos hneg, if_pos hneg]
    · rw [if_neg hneg, if_neg hneg]
      congr 1
      apply List.map_congr_left
      intro i hi
      rw [List.mem_range] at hi
      rw [wrapInt64_add_wrapInt64, wrapInt64_of_range _ (by omega) (by omega)]

/-- Where neither the `Count` at `Head` nor `Head + 1` nor `Tail + 1` overflows, the
wrapping `Mark64` is the `Mark` over the mathematical integers. -/
theorem Mark64_eq_of_no_wrap (rc : RateCounter) (t : Int)
    (hcount : ∀ b, rc.Buckets[rc.Head.toNat]? = some b →
      minInt64 ≤ b.Count + 1 ∧ b.Count + 1 ≤ maxInt64)
    (hhead : minInt64 ≤ rc.Head + 1 ∧ rc.Head + 1 ≤ maxInt64)
    (htail : minInt64 ≤ rc.Tail + 1 ∧ rc.Tail + 1 ≤ maxInt64) :
    Mark64 rc t = Mark rc t := by
  unfold Mark64 Mark
  rw [wrapInt64_of_range _ hhead.1 hhead.2, wrapInt64_of_range _ htail.1 htail.2]
  cases hidx : index rc.Buckets rc.Head with
  | error e => rfl
  | ok b =>
    have hb := ((index_ok_iff _ _ _).mp hidx).2
    have hc := hcount b hb
    simp only []
    rw [wrapInt64_of_range _ hc.1 hc.2]

theorem runHistogram64_eq_of_no_wrap (n : Int) (ts : List Int) (now numSeconds : Int)
    (hlo : minInt64 ≤ now - numSeconds) (hhi : now ≤ maxInt64) :
    runHistogram64 n ts now numSeconds = runHistogram n ts now numSeconds := by
  unfold runHistogram64 runHistogram
  cases run n ts with
  | error e => rfl
  | ok rc => exact GetHistogram64_eq_of_no_wrap rc now numSeconds hlo hhi

/-! ## The write path with Go's arithmetic -/

/-- C9, as stated, fails: on the counter `{Buckets: [{7, 2^63 - 1}], Head: 0}` a mark at
reading `7` wraps the `Count` round to `-2^63` where the claim has `2^63`. -/
theorem Mark64_count_wraps :
    Mark64 ⟨[⟨7, 9223372036854775807⟩], 0, 0, 1⟩ 7 =
      .ok ⟨[⟨7, -9223372036854775808⟩], 0, 0, 1⟩ ∧
    ¬ (∀ (rc : RateCounter) (t : Int) (b : Counter),
        rc.bucketCount = rc.Buckets.length → 1 ≤ rc.bucketCount →
        0 ≤ rc.Head → rc.Head < rc.bucketCount →
        rc.Buckets[rc.Head.toNat]? = some b → b.Timestamp = t →
        ∃ rc', Mark64 rc t = .ok rc' ∧
          rc'.Buckets[rc.Head.toNat]? = some ⟨b.Timestamp, b.Count + 1⟩) := by
  have heval : Mark64 ⟨[⟨7, 9223372036854775807⟩], 0, 0, 1⟩ 7 =
      .ok ⟨[⟨7, -9223372036854775808⟩], 0, 0, 1⟩ := rfl
  refine ⟨heval, ?_⟩
  intro h
  obtain ⟨rc', hmark, hb⟩ := h ⟨[⟨7, 9223372036854775807⟩], 0, 0, 1⟩ 7
    ⟨7, 9223372036854775807⟩ rfl (by decide) (by decide) (by decide)
    (List.getElem?_cons_zero ..) rfl
  rw [heval] at hmark
  rw [← Except.ok.inj hmark] at hb
  exact absurd hb (by decide)

/-- C9, amended: when the bucket at `Head` already carries the clock reading and its
`Count` is below the largest `int` value, `Mark` adds exactly one to that `Count` and
leaves its `Timestamp`, `Head`, `Tail`, `bucketCount` and every other bucket as they
were. -/
theorem Mark64_same_second (rc : RateCounter) (t : Int) (b : Counter)
    (hlen : rc.bucketCount = rc.Buckets.length) (hpos : 1 ≤ rc.bucketCount)
    (h0 : 0 ≤ rc.Head) (h1 : rc.Head < rc.bucketCount)
    (hb : rc.Buckets[rc.Head.toNat]? = some b) (ht : b.Timestamp = t)
    (hc0 : minInt64 ≤ b.Count) (hc1 : b.Count < maxInt64) :
    ∃ rc', Mark64 rc t = .ok rc' ∧
      rc'.Buckets[rc.Head.toNat]? = some ⟨b.Timestamp, b.Count + 1⟩ ∧
      rc'.Head = rc.Head ∧ rc'.Tail = rc.Tail ∧ rc'.bucketCount = rc.bucketCount ∧
      rc'.Buckets.length = rc.Buckets.length ∧
      ∀ j : Nat, j ≠ rc.Head.toNat → rc'.Buckets[j]? = rc.Buckets[j]? := by
  have hlt : rc.Head.toNat < rc.Buckets.length := by omega
  have hmark : Mark64 rc t = .ok
      { rc with Buckets := rc.Buckets.set rc.Head.toNat ⟨b.Timestamp, b.Count + 1⟩ } := by
    unfold Mark64
    rw [index_ok _ _ b h0 hb]
    simp only [if_pos ht]
    rw [wrapInt64_of_range _ (by omega) (by omega)]
  refine ⟨_, hmark, ?_, rfl, rfl, rfl, ?_, ?_⟩
  · simp [List.getElem?_set, hlt]
  · simp
  · intro j hj
    simp [List.getElem?_set, Ne.symm hj]

theorem Mark64_same_second_witness :
    ∃ rc', Mark64 ⟨[⟨0, 0⟩, ⟨7, 9223372036854775806⟩, ⟨0, 0⟩], 1, 0, 3⟩ 7 = .ok rc' ∧
      rc'.Buckets[(1 : Int).toNat]? = some ⟨7, 9223372036854775806 + 1⟩ ∧
      rc'.Head = 1 ∧ rc'.Tail = 0 ∧ rc'.bucketCount = 3 ∧
      rc'.Buckets.length = 3 ∧
      ∀ j : Nat, j ≠ (1 : Int).toNat →
        rc'.Buckets[j]? = ([⟨0, 0⟩, ⟨7, 9223372036854775806⟩, ⟨0, 0⟩] : List Counter)[j]? :=
  Mark64_same_second ⟨[⟨0, 0⟩, ⟨7, 9223372036854775806⟩, ⟨0, 0⟩], 1, 0, 3⟩ 7
    ⟨7, 9223372036854775806⟩ rfl (by decide) (by decide) (by decide) rfl rfl
    (by decide) (by decide)

/-! ## The read path with Go's arithmetic -/

/-- C2, as stated, fails: at `now = -2^63 + 1` and `numSeconds = 3` the `int64` value
`start` wraps round to `2^63 - 2`, so element `0` is the `Count` `4` of the bucket stamped
`2^63 - 2` although no bucket has the `Timestamp` `now - numSeconds + 0`. -/
theorem GetHistogram64_key_wraps :
    GetHistogram64 ⟨[⟨9223372036854775806, 4⟩], 0, 0, 1⟩ (-9223372036854775807) 3 =
      .ok [4, 0, 0] ∧
    ¬ (∀ (rc : RateCounter) (now numSeconds : Int) (i : Nat),
        rc.bucketCount = rc.Buckets.length → 0 ≤ numSeconds → (i : Int) < numSeconds →
        ∃ hist v, GetHistogram64 rc now numSeconds = .ok hist ∧ hist[i]? = some v ∧
          (∀ (j : Nat) (b : Counter), rc.Buckets[j]? = some b →
            b.Timestamp = now - numSeconds + i →
            (∀ (j' : Nat) (b' : Counter), j < j' → rc.Buckets[j']? = some b' →
              b'.Timestamp ≠ now - numSeconds + i) → v = b.Count) ∧
          ((∀ b ∈ rc.Buckets, b.Timestamp ≠ now - numSeconds + i) → v = 0)) := by
  have heval : GetHistogram64 ⟨[⟨9223372036854775806, 4⟩], 0, 0, 1⟩
      (-9223372036854775807) 3 = .ok [4, 0, 0] := rfl
  refine ⟨heval, ?_⟩
  intro h
  obtain ⟨hist, v, hh, hv, _, hzero⟩ := h ⟨[⟨9223372036854775806, 4⟩], 0, 0, 1⟩
    (-9223372036854775807) 3 0 rfl (by decide) (by decide)
  rw [heval] at hh
  rw [← Except.ok.inj hh] at hv
  have hv4 : v = 4 := (Option.some.inj hv).symm
  have hv0 : v = 0 := hzero (by decide)
  rw [hv4] at hv0
  exact absurd hv0 (by decide)

/-- C2, amended: on a counter whose `bucketCount` is the number of its buckets, for a clock
reading `now` and `numSeconds ≥ 0` such that `now - numSeconds` does not fall below the
smallest `int64` value, element `i` of `GetHistogram(numSeconds)` is the `Count` of the
highest-indexed bucket whose `Timestamp` is `now - numSeconds + i`, and `0` when no bucket
has that `Timestamp`. -/
theorem GetHistogram64_element (rc : RateCounter) (now numSeconds : Int) (i : Nat)
    (hlen : rc.bucketCount = rc.Buckets.length) (hn : 0 ≤ numSeconds)
    (hi : (i : Int) < numSeconds)
    (hlo : minInt64 ≤ now - numSeconds) (hhi : now ≤ maxInt64) :
    ∃ hist v, GetHistogram64 rc now numSeconds = .ok hist ∧ hist[i]? = some v ∧
      (∀ (j : Nat) (b : Counter), rc.Buckets[j]? = some b →
        b.Timestamp = now - numSeconds + i →
        (∀ (j' : Nat) (b' : Counter), j < j' → rc.Buckets[j']? = some b' →
          b'.Timestamp ≠ now - numSeconds + i) → v = b.Count) ∧
      ((∀ b ∈ rc.Buckets, b.Timestamp ≠ now - numSeconds + i) → v = 0) := by
  obtain ⟨hist, v, hh, hrest⟩ := GetHistogram_element rc now numSeconds i hlen hn hi
  exact ⟨hist, v, by rw [GetHistogram64_eq_of_no_wrap rc now numSeconds hlo hhi]; exact hh,
    hrest⟩

theorem GetHistogram64_element_witness :
    ∃ hist v, GetHistogram64 ⟨[⟨0, 0⟩, ⟨7, 2⟩, ⟨0, 5⟩], 1, 0, 3⟩ 3 4 = .ok hist ∧
      hist[1]? = some v ∧
      (∀ (j : Nat) (b : Counter),
        ([⟨0, 0⟩, ⟨7, 2⟩, ⟨0, 5⟩] : List Counter)[j]? = some b →
        b.Timestamp = 3 - 4 + ((1 : Nat) : Int) →
        (∀ (j' : Nat) (b' : Counter), j < j' →
          ([⟨0, 0⟩, ⟨7, 2⟩, ⟨0, 5⟩] : List Counter)[j']? = some b' →
          b'.Timestamp ≠ 3 - 4 + ((1 : Nat) : Int)) → v = b.Count) ∧
      ((∀ b ∈ ([⟨0, 0⟩, ⟨7, 2⟩, ⟨0, 5⟩] : List Counter),
        b.Timestamp ≠ 3 - 4 + ((1 : Nat) : Int)) → v = 0) :=
  GetHistogram64_element ⟨[⟨0, 0⟩, ⟨7, 2⟩, ⟨0, 5⟩], 1, 0, 3⟩ 3 4 1 rfl (by decide)
    (by decide) (by decide) (by decide)

/-- C4, as stated, fails.  With `bucketCount = 0` and one bucket `{6, 9}` the histogram at
`now = 7` is `[0]` although the bucket records `9` marks for second `now - 1`; with
`bucketCount = 1` and no bucket the call panics; and at `now = -2^63 + 1`,
`numSeconds = 3` element `0` is `4`, the `Count` of a bucket stamped `2^63 - 2`, which is
no second of `[now - numSeconds, now - 1]`. -/
theorem GetHistogram64_alignment_fails :
    GetHistogram64 ⟨[⟨6, 9⟩], 0, 0, 0⟩ 7 1 = .ok [0] ∧
    recordedCount [⟨6, 9⟩] (7 - 1) = 9 ∧
    GetHistogram64 ⟨[], 0, 0, 1⟩ 7 1 = .error .indexOutOfRange ∧
    GetHistogram64 ⟨[⟨9223372036854775806, 4⟩], 0, 0, 1⟩ (-9223372036854775807) 3 =
      .ok [4, 0, 0] ∧
    (∀ s : Int, -9223372036854775807 - 3 ≤ s → s ≤ -9223372036854775807 - 1 →
      recordedCount [⟨9223372036854775806, 4⟩] s = 0) ∧
    ¬ (∀ (rc : RateCounter) (now numSeconds : Int), 1 ≤ numSeconds →
        ∃ hist, GetHistogram64 rc now numSeconds = .ok hist ∧
          hist[(numSeconds - 1).toNat]? = some (recordedCount rc.Buckets (now - 1))) := by
  have heval : GetHistogram64 ⟨[⟨6, 9⟩], 0, 0, 0⟩ 7 1 = .ok [0] := rfl
  refine ⟨heval, rfl, rfl, rfl, ?_, ?_⟩
  · intro s _ hs
    apply recordedCount_of_absent
    intro b hb
    rw [List.mem_singleton.mp hb]
    show (9223372036854775806 : Int) ≠ s
    omega
  · intro h
    obtain ⟨hist, hh, hlast⟩ := h ⟨[⟨6, 9⟩], 0, 0, 0⟩ 7 1 (by decide)
    rw [heval] at hh
    rw [← Except.ok.inj hh] at hlast
    exact absurd hlast (by decide)

/-- C4, amended: on a counter whose `bucketCount` is the number of its buckets, for
`numSeconds ≥ 1` and a clock reading `now` such that `now - numSeconds` does not fall below
the smallest `int64` value, the last element of `GetHistogram(numSeconds)` is the count
recorded for second `now - 1` (the `Count` of the highest-indexed bucket stamped `now - 1`,
`0` when there is none), every element is the count recorded for a second of
`[now - numSeconds, now - 1]`, and a counter that differs only in the `Count` of buckets
whose `Timestamp` is `now` gives the same histogram. -/
theorem GetHistogram64_alignment (rc rc' : RateCounter) (now numSeconds : Int)
    (hlen : rc.bucketCount = rc.Buckets.length) (h1 : 1 ≤ numSeconds)
    (hlo : minInt64 ≤ now - numSeconds) (hhi : now ≤ maxInt64) :
    ∃ hist v, GetHistogram64 rc now numSeconds = .ok hist ∧
      hist[(numSeconds - 1).toNat]? = some v ∧ v = recordedCount rc.Buckets (now - 1) ∧
      (∀ (j : Nat) (b : Counter), rc.Buckets[j]? = some b → b.Timestamp = now - 1 →
        (∀ (j' : Nat) (b' : Counter), j < j' → rc.Buckets[j']? = some b' →
          b'.Timestamp ≠ now - 1) → v = b.Count) ∧
      ((∀ b ∈ rc.Buckets, b.Timestamp ≠ now - 1) → v = 0) ∧
      (∀ i : Nat, (i : Int) < numSeconds →
        ∃ s, now - numSeconds ≤ s ∧ s ≤ now - 1 ∧ s = now - numSeconds + i ∧
          hist[i]? = some (recordedCount rc.Buckets s)) ∧
      (SameExceptCountAt now rc rc' → GetHistogram64 rc' now numSeconds = .ok hist) := by
  have htake : rc.Buckets.take rc.bucketCount.toNat = rc.Buckets := by
    apply List.take_of_length_le
    omega
  obtain ⟨hok, _, hsame⟩ := GetHistogram_alignment rc rc' now numSeconds h1
  obtain ⟨hist, hh, hlast, hall⟩ := hok (by omega)
  rw [htake] at hlast hall
  refine ⟨hist, recordedCount rc.Buckets (now - 1),
    by rw [GetHistogram64_eq_of_no_wrap rc now numSeconds hlo hhi]; exact hh,
    hlast, rfl, ?_, ?_, ?_, ?_⟩
  · intro j b hj hb hlater
    exact recordedCount_of_last _ _ j b hj hb hlater
  · intro h
    exact recordedCount_of_absent _ _ h
  · intro i hi
    obtain ⟨hge, hle, hval⟩ := hall i hi
    exact ⟨_, hge, hle, rfl, hval⟩
  · intro hs
    rw [GetHistogram64_eq_of_no_wrap rc' now numSeconds hlo hhi, hsame hs]
    exact hh

theorem GetHistogram64_alignment_witness :
    (∃ hist v, GetHistogram64 ⟨[⟨5, 2⟩, ⟨7, 2⟩, ⟨6, 5⟩], 1, 2, 3⟩ 7 2 = .ok hist ∧
      hist[((2 : Int) - 1).toNat]? = some v ∧
      v = recordedCount [⟨5, 2⟩, ⟨7, 2⟩, ⟨6, 5⟩] (7 - 1) ∧
      (∀ (j : Nat) (b : Counter),
        ([⟨5, 2⟩, ⟨7, 2⟩, ⟨6, 5⟩] : List Counter)[j]? = some b → b.Timestamp = 7 - 1 →
        (∀ (j' : Nat) (b' : Counter), j < j' →
          ([⟨5, 2⟩, ⟨7, 2⟩, ⟨6, 5⟩] : List Counter)[j']? = some b' →
          b'.Timestamp ≠ 7 - 1) → v = b.Count) ∧
      ((∀ b ∈ ([⟨5, 2⟩, ⟨7, 2⟩, ⟨6, 5⟩] : List Counter), b.Timestamp ≠ 7 - 1) → v = 0) ∧
      (∀ i : Nat, (i : Int) < 2 →
        ∃ s, (7 : Int) - 2 ≤ s ∧ s ≤ 7 - 1 ∧ s = 7 - 2 + i ∧
          hist[i]? = some (recordedCount [⟨5, 2⟩, ⟨7, 2⟩, ⟨6, 5⟩] s)) ∧
      (SameExceptCountAt 7 ⟨[⟨5, 2⟩, ⟨7, 2⟩, ⟨6, 5⟩], 1, 2, 3⟩
          ⟨[⟨5, 2⟩, ⟨7, 9⟩, ⟨6, 5⟩], 1, 2, 3⟩ →
        GetHistogram64 ⟨[⟨5, 2⟩, ⟨7, 9⟩, ⟨6, 5⟩], 1, 2, 3⟩ 7 2 = .ok hist)) ∧
    GetHistogram64 ⟨[⟨5, 2⟩, ⟨7, 2⟩, ⟨6, 5⟩], 1, 2, 3⟩ 7 2 = .ok [2, 5] ∧
    GetHistogram64 ⟨[⟨5, 2⟩, ⟨7, 9⟩, ⟨6, 5⟩], 1, 2, 3⟩ 7 2 = .ok [2, 5] :=
  ⟨GetHistogram64_alignment ⟨[⟨5, 2⟩, ⟨7, 2⟩, ⟨6, 5⟩], 1, 2, 3⟩
    ⟨[⟨5, 2⟩, ⟨7, 9⟩, ⟨6, 5⟩], 1, 2, 3⟩ 7 2 rfl (by decide) (by decide) (by decide),
    rfl, rfl⟩

/-! ## Runs read back with Go's arithmetic -/

/-- C1, as stated, fails: after four marks at reading `2^63 - 2` on a counter of capacity
`1`, `GetHistogram(3)` at `now = -2^63 + 1` returns `4` at index `0`, because the `int64`
value `start` wraps round to the marked second, although `now - numSeconds + 0` is no
reading of the sequence. -/
theorem retained_seconds_key_wraps :
    runHistogram64 1 [9223372036854775806, 9223372036854775806, 9223372036854775806,
      9223372036854775806] (-9223372036854775807) 3 = .ok [4, 0, 0] ∧
    ¬ (∀ (n : Int) (ts : List Int) (now numSeconds : Int) (i : Nat), 1 ≤ n →
        ts.Pairwise (· ≤ ·) → (∀ t ∈ ts, 1 ≤ t) → (i : Int) < numSeconds →
        ∃ hist, runHistogram64 n ts now numSeconds = .ok hist ∧
          hist[i]? = some
            (if now - numSeconds + i ∈ ts ∧ (newer ts (now - numSeconds + i) : Int) < n
             then (ts.count (now - numSeconds + i) : Int) else 0)) := by
  have heval : runHistogram64 1 [9223372036854775806, 9223372036854775806,
      9223372036854775806, 9223372036854775806] (-9223372036854775807) 3 =
      .ok [4, 0, 0] := rfl
  refine ⟨heval, ?_⟩
  intro h
  obtain ⟨hist, hh, hv⟩ := h 1 [9223372036854775806, 9223372036854775806,
    9223372036854775806, 9223372036854775806] (-9223372036854775807) 3 0
    (by decide) (by decide) (by decide) (by decide)
  rw [heval] at hh
  rw [← Except.ok.inj hh, if_neg (fun hc => absurd hc.1 (by decide))] at hv
  exact absurd hv (by decide)

/-- C1, amended: after marks at non-decreasing readings, all at least `1`, on a fresh
counter of capacity `n ≥ 1`, for a query time `now` and `numSeconds` such that
`now - numSeconds` does not fall below the smallest `int64` value, element `i` of
`GetHistogram(numSeconds)` is the number of marks made at second
`s = now - numSeconds + i` when `s` is one of the `n` largest distinct readings (it was
marked and fewer than `n` distinct readings are greater), and `0` otherwise. -/
theorem histogram64_counts_retained_seconds (n : Int) (hn : 1 ≤ n) (ts : List Int)
    (hs : ts.Pairwise (· ≤ ·)) (hp : ∀ t ∈ ts, 1 ≤ t) (now numSeconds : Int) (i : Nat)
    (hi : (i : Int) < numSeconds)
    (hlo : minInt64 ≤ now - numSeconds) (hhi : now ≤ maxInt64) :
    ∃ hist, runHistogram64 n ts now numSeconds = .ok hist ∧
      hist[i]? = some
        (if now - numSeconds + i ∈ ts ∧ (newer ts (now - numSeconds + i) : Int) < n
         then (ts.count (now - numSeconds + i) : Int) else 0) := by
  rw [runHistogram64_eq_of_no_wrap n ts now numSeconds hlo hhi]
  exact histogram_counts_retained_seconds n hn ts hs hp now numSeconds i hi

theorem histogram64_counts_retained_seconds_witness :
    (∃ hist, runHistogram64 2 [1, 2, 2, 3] 4 3 = .ok hist ∧
      hist[1]? = some
        (if (4 : Int) - 3 + ((1 : Nat) : Int) ∈ ([1, 2, 2, 3] : List Int) ∧
            (newer [1, 2, 2, 3] (4 - 3 + ((1 : Nat) : Int)) : Int) < 2
         then (([1, 2, 2, 3] : List Int).count (4 - 3 + ((1 : Nat) : Int)) : Int) else 0)) ∧
    runHistogram64 2 [1, 2, 2, 3] 4 3 = .ok [0, 2, 1] :=
  ⟨histogram64_counts_retained_seconds 2 (by decide) [1, 2, 2, 3] (by decide) (by decide)
    4 3 1 (by decide) (by decide) (by decide), rfl⟩

/-- C6, as stated, fails: after four marks at reading `2^63 - 2` on a counter of capacity
`1`, no mark was made at second `now - numSeconds + 0` for `now = -2^63 + 1` and
`numSeconds = 3`, yet `GetHistogram(3)` returns `4` at index `0`. -/
theorem gap_zero_fill_key_wraps :
    runHistogram64 1 [9223372036854775806, 9223372036854775806, 9223372036854775806,
      9223372036854775806] (-9223372036854775807) 3 = .ok [4, 0, 0] ∧
    ¬ (∀ (n : Int) (ts : List Int) (now numSeconds : Int) (i : Nat), 1 ≤ n →
        (i : Int) < numSeconds → now - numSeconds + i ∉ ts →
        ∃ hist, runHistogram64 n ts now numSeconds = .ok hist ∧ hist[i]? = some 0) := by
  have heval : runHistogram64 1 [9223372036854775806, 9223372036854775806,
      9223372036854775806, 9223372036854775806] (-9223372036854775807) 3 =
      .ok [4, 0, 0] := rfl
  refine ⟨heval, ?_⟩
  intro h
  obtain ⟨hist, hh, hv⟩ := h 1 [9223372036854775806, 9223372036854775806,
    9223372036854775806, 9223372036854775806] (-9223372036854775807) 3 0
    (by decide) (by decide) (by decide)
  rw [heval] at hh
  rw [← Except.ok.inj hh] at hv
  exact absurd hv (by decide)

/-- C6, amended: after marks at an arbitrary finite sequence of readings on a fresh counter
of capacity `n ≥ 1`, for a query time `now` and `numSeconds` such that `now - numSeconds`
does not fall below the smallest `int64` value, element `i` of `GetHistogram(numSeconds)`
is `0` whenever no mark was made at second `now - numSeconds + i`. -/
theorem gap_zero_fill64 (n : Int) (hn : 1 ≤ n) (ts : List Int) (now numSeconds : Int)
    (i : Nat) (hi : (i : Int) < numSeconds) (hno : now - numSeconds + i ∉ ts)
    (hlo : minInt64 ≤ now - numSeconds) (hhi : now ≤ maxInt64) :
    ∃ hist, runHistogram64 n ts now numSeconds = .ok hist ∧ hist[i]? = some 0 := by
  rw [runHistogram64_eq_of_no_wrap n ts now numSeconds hlo hhi]
  exact gap_zero_fill n hn ts now numSeconds i hi hno

theorem gap_zero_fill64_witness :
    (∃ hist, runHistogram64 3 [5, 6, 5, 0, 9] 10 6 = .ok hist ∧ hist[3]? = some 0) ∧
    runHistogram64 3 [5, 6, 5, 0, 9] 10 6 = .ok [0, 1, 0, 0, 0, 1] :=
  ⟨gap_zero_fill64 3 (by decide) [5, 6, 5, 0, 9] 10 6 3 (by decide) (by decide)
    (by decide) (by decide), rfl⟩

/-- C17, as stated, fails: after four marks at reading `2^63 - 2` on a counter of capacity
`1`, `GetHistogram(3)` at `now = -2^63 + 1` returns `4` at index `0`, more than the number
of marks made at second `now - numSeconds + 0`, which is `0`. -/
theorem over_report_key_wraps :
    runHistogram64 1 [9223372036854775806, 9223372036854775806, 9223372036854775806,
      9223372036854775806] (-9223372036854775807) 3 = .ok [4, 0, 0] ∧
    ¬ (∀ (n : Int) (ts : List Int) (now numSeconds : Int) (i : Nat), 1 ≤ n →
        (i : Int) < numSeconds →
        ∃ hist v, runHistogram64 n ts now numSeconds = .ok hist ∧ hist[i]? = some v ∧
          0 ≤ v ∧ v ≤ (ts.count (now - numSeconds + i) : Int)) := by
  have heval : runHistogram64 1 [9223372036854775806, 9223372036854775806,
      9223372036854775806, 9223372036854775806] (-9223372036854775807) 3 =
      .ok [4, 0, 0] := rfl
  refine ⟨heval, ?_⟩
  intro h
  obtain ⟨hist, v, hh, hv, _, hle⟩ := h 1 [9223372036854775806, 9223372036854775806,
    9223372036854775806, 9223372036854775806] (-9223372036854775807) 3 0
    (by decide) (by decide)
  rw [heval] at hh
  rw [← Except.ok.inj hh] at hv
  rw [← Option.some.inj hv] at hle
  exact absurd hle (by decide)

/-- C17, amended: after marks at an arbitrary finite sequence of readings (not necessarily
monotone) on a fresh counter of capacity `n ≥ 1`, for a query time `now` and `numSeconds`
such that `now - numSeconds` does not fall below the smallest `int64` value, every element
`i` of `GetHistogram(numSeconds)` lies between `0` and the number of marks made at second
`now - numSeconds + i` (counts taken as unbounded integers). -/
theorem histogram64_never_over_reports (n : Int) (hn : 1 ≤ n) (ts : List Int)
    (now numSeconds : Int) (i : Nat) (hi : (i : Int) < numSeconds)
    (hlo : minInt64 ≤ now - numSeconds) (hhi : now ≤ maxInt64) :
    ∃ hist v, runHistogram64 n ts now numSeconds = .ok hist ∧ hist[i]? = some v ∧
      0 ≤ v ∧ v ≤ (ts.count (now - numSeconds + i) : Int) := by
  rw [runHistogram64_eq_of_no_wrap n ts now numSeconds hlo hhi]
  exact histogram_never_over_reports n hn ts now numSeconds i hi

theorem histogram64_never_over_reports_witness :
    (∃ hist v, runHistogram64 3 [5, 6, 5, 5] 7 2 = .ok hist ∧ hist[0]? = some v ∧
      0 ≤ v ∧ v ≤ (([5, 6, 5, 5] : List Int).count (7 - 2 + ((0 : Nat) : Int)) : Int)) ∧
    runHistogram64 3 [5, 6, 5, 5] 7 2 = .ok [1, 1] :=
  ⟨histogram64_never_over_reports 3 (by decide) [5, 6, 5, 5] 7 2 0 (by decide)
    (by decide) (by decide), rfl⟩

end Stats
